import Mathlib

/-!
Verification of the WebSocket order-book streaming core of the
Order-Execution-and-Management-System repository.

The embedding mirrors `WebSocketClient.cpp`: the JSON value model and the
(de)serialization routines model the jsoncpp library calls used by the code
(`Json::Value` member access/assignment, `Json::FastWriter`, `Json::Reader`,
`Value::toStyledString`), and the asynchronous callback chain
(`run → on_resolve → on_connect → on_ssl_handshake → on_handshake →
subscribe_to_orderbook → on_write → read/on_read`) is defunctionalized into a
deterministic run over an environment of completion outcomes, producing a
chronological event trace (stage entries, issued network operations, stdout
and stderr emissions).

Model notes for the jsoncpp parts (external library, not in this repository):
* `Json::Value` stores object members in a `std::map` keyed by the member
  name, ordered bytewise-lexicographically; `objSet`/`insertMember` model
  the map insert, `fastWrite` models `FastWriter::write` (compact output,
  members in key order, a terminating newline), `toStyledString` models the
  styled writer (indented output, single-line layout for short leaf-only
  arrays, members in key order, a terminating newline); whitespace placement
  is simplified where only its presence, not its exact shape, is observable
  through re-parsing.
* `parseJson` models `Json::Reader::parse` on the JSON core the program
  exchanges: null/true/false, integer numerals, strings with the standard
  escapes, arrays and objects (later duplicate members overwrite earlier
  ones, as in the map). Comment syntax and floating-point numerals are
  outside the model.
-/

namespace OEMS

/-- Whitespace recognized by the reader between JSON tokens. -/
def isWsChar (c : Char) : Bool :=
  c = ' ' || c = '\t' || c = '\n' || c = '\r'

/-- Drop leading whitespace, as the reader does before each token. -/
def skipWs : List Char → List Char
  | [] => []
  | c :: cs => if isWsChar c then skipWs cs else c :: cs

/-- Decimal digit test. -/
def isDigitChar (c : Char) : Bool :=
  '0' ≤ c && c ≤ '9'

/-- Character for a decimal digit value. -/
def digitChar (d : Nat) : Char :=
  Char.ofNat (48 + d)

/-- Numeric value of a decimal digit character. -/
def digitVal (c : Char) : Nat :=
  c.toNat - 48

/-- Longest leading run of decimal digits, and the remainder. -/
def takeDigits : List Char → List Char × List Char
  | [] => ([], [])
  | c :: cs =>
    if isDigitChar c then
      let p := takeDigits cs
      (c :: p.1, p.2)
    else ([], c :: cs)

/-- Value of a big-endian digit string. -/
def digitsVal (ds : List Char) : Nat :=
  ds.foldl (fun a c => 10 * a + digitVal c) 0

/-- Big-endian decimal digits of a positive number; the first argument is
recursion fuel (`n` itself suffices). -/
def natDigits : Nat → Nat → List Char
  | 0, _ => []
  | fuel + 1, n => if n = 0 then [] else natDigits fuel (n / 10) ++ [digitChar (n % 10)]

/-- Decimal numeral of a natural number, as jsoncpp's `valueToString` prints it. -/
def natChars (n : Nat) : List Char :=
  if n = 0 then ['0'] else natDigits n n

/-- Decimal numeral of an integer. -/
def intChars (n : Int) : List Char :=
  if n < 0 then '-' :: natChars n.natAbs else natChars n.toNat

/-- Lower-case hexadecimal digit character. -/
def hexChar (d : Nat) : Char :=
  if d < 10 then Char.ofNat (48 + d) else Char.ofNat (87 + d)

/-- Hexadecimal digit value of a character, if it is one. -/
def hexVal (c : Char) : Option Nat :=
  if '0' ≤ c && c ≤ '9' then some (c.toNat - 48)
  else if 'a' ≤ c && c ≤ 'f' then some (c.toNat - 87)
  else if 'A' ≤ c && c ≤ 'F' then some (c.toNat - 55)
  else none

/-- Escape one character the way jsoncpp's `valueToQuotedString` does:
quote, backslash and the named control characters get two-character escapes,
any other control character becomes a `\u00xx` escape, and everything else
is passed through. -/
def escChar (c : Char) : List Char :=
  if c = '"' then ['\\', '"']
  else if c = '\\' then ['\\', '\\']
  else if c = '\x08' then ['\\', 'b']
  else if c = '\x0c' then ['\\', 'f']
  else if c = '\n' then ['\\', 'n']
  else if c = '\r' then ['\\', 'r']
  else if c = '\t' then ['\\', 't']
  else if c.toNat < 32 then
    ['\\', 'u', '0', '0', hexChar (c.toNat / 16), hexChar (c.toNat % 16)]
  else [c]

/-- Escape a whole string body. -/
def escStr (s : String) : List Char :=
  (s.data.map escChar).flatten

/-- Quoted JSON string literal for `s`. -/
def quoteStr (s : String) : List Char :=
  '"' :: escStr s ++ ['"']

/-- JSON value tree, modelling `Json::Value` as the program uses it.
Object member lists are kept in the key order of jsoncpp's member map;
numbers cover the integer values the program handles. -/
inductive Json where
  | null : Json
  | bool (b : Bool) : Json
  | num (n : Int) : Json
  | str (s : String) : Json
  | arr (elems : List Json) : Json
  | obj (members : List (String × Json)) : Json

/-- Lexicographic order on character lists, modelling the bytewise `strcmp`
order of jsoncpp's member map keys. -/
def charsLt : List Char → List Char → Bool
  | [], [] => false
  | [], _ :: _ => true
  | _ :: _, [] => false
  | c :: cs, d :: ds =>
    if c.toNat < d.toNat then true
    else if d.toNat < c.toNat then false
    else charsLt cs ds

/-- Key order of the member map. -/
def keyLt (k k' : String) : Bool :=
  charsLt k.data k'.data

/-- Insert a member into an ordered member list, overwriting an existing
key, as `std::map::operator[]` assignment does. -/
def insertMember : List (String × Json) → String → Json → List (String × Json)
  | [], k, v => [(k, v)]
  | (k', v') :: ms, k, v =>
    if k = k' then (k, v) :: ms
    else if keyLt k k' then (k, v) :: (k', v') :: ms
    else (k', v') :: insertMember ms k v

/-- Member assignment `j[k] = v` on a `Json::Value`; a null value silently
becomes an object first, as in jsoncpp. -/
def objSet (j : Json) (k : String) (v : Json) : Json :=
  match j with
  | .obj ms => .obj (insertMember ms k v)
  | _ => .obj [(k, v)]

/-- Member read `j[k]` on a `Json::Value`, yielding null when absent. -/
def objGet (j : Json) (k : String) : Json :=
  match j with
  | .obj ms => (((ms.find? (fun m => m.1 = k)).map (fun m => m.2)).getD .null)
  | _ => .null

/-- Element append `j.append(v)`; a null value becomes a one-element array,
as in jsoncpp. -/
def jsonAppend (j v : Json) : Json :=
  match j with
  | .arr es => .arr (es ++ [v])
  | _ => .arr [v]

mutual
/-- Compact rendering of one value, as `Json::FastWriter` emits it. -/
def fastVal : Json → List Char
  | .null => ['n', 'u', 'l', 'l']
  | .bool b => if b then ['t', 'r', 'u', 'e'] else ['f', 'a', 'l', 's', 'e']
  | .num n => intChars n
  | .str s => quoteStr s
  | .arr es => '[' :: fastItems es ++ [']']
  | .obj ms => '{' :: fastMembers ms ++ ['}']

/-- Comma-separated compact renderings of array elements. -/
def fastItems : List Json → List Char
  | [] => []
  | [v] => fastVal v
  | v :: vs => fastVal v ++ ',' :: fastItems vs

/-- Comma-separated compact renderings of object members. -/
def fastMembers : List (String × Json) → List Char
  | [] => []
  | [(k, v)] => quoteStr k ++ ':' :: fastVal v
  | (k, v) :: ms => quoteStr k ++ ':' :: fastVal v ++ ',' :: fastMembers ms
end

/-- Output of `Json::FastWriter().write(v)`: the compact rendering followed
by a newline. -/
def fastWrite (v : Json) : String :=
  ⟨fastVal v ++ ['\n']⟩

/-- Subscription request value built by `subscribe_to_orderbook`, line for
line: `subscription["jsonrpc"] = "2.0"; subscription["id"] = 1;
subscription["method"] = "public/subscribe";
subscription["params"]["channels"].append("book." + instrument_ + ".100ms")`. -/
def subscriptionValue (instrument : String) : Json :=
  let subscription := Json.null
  let subscription := objSet subscription "jsonrpc" (.str "2.0")
  let subscription := objSet subscription "id" (.num 1)
  let subscription := objSet subscription "method" (.str "public/subscribe")
  let params := objGet subscription "params"
  let channels := jsonAppend (objGet params "channels")
    (.str ("book." ++ instrument ++ ".100ms"))
  objSet subscription "params" (objSet params "channels" channels)

/-- Serialized subscribe frame handed to `async_write`. -/
def subscribeFrame (instrument : String) : String :=
  fastWrite (subscriptionValue instrument)

/-- Decode a two-character escape. -/
def escDecode (e : Char) : Option Char :=
  if e = '"' then some '"'
  else if e = '\\' then some '\\'
  else if e = '/' then some '/'
  else if e = 'b' then some '\x08'
  else if e = 'f' then some '\x0c'
  else if e = 'n' then some '\n'
  else if e = 'r' then some '\r'
  else if e = 't' then some '\t'
  else none

/-- Body of a JSON string literal after the opening quote: unescape until
the closing quote, returning the decoded characters and the remainder. -/
def parseStrBody : List Char → Option (List Char × List Char)
  | [] => none
  | c :: cs =>
    if c = '"' then some ([], cs)
    else if c = '\\' then
      match cs with
      | [] => none
      | e :: cs2 =>
        if e = 'u' then
          match cs2 with
          | h1 :: h2 :: h3 :: h4 :: cs3 =>
            match hexVal h1, hexVal h2, hexVal h3, hexVal h4 with
            | some d1, some d2, some d3, some d4 =>
              let n := ((d1 * 16 + d2) * 16 + d3) * 16 + d4
              if n.isValidChar then
                (parseStrBody cs3).map (fun p => (Char.ofNat n :: p.1, p.2))
              else none
            | _, _, _, _ => none
          | _ => none
        else
          match escDecode e with
          | some d => (parseStrBody cs2).map (fun p => (d :: p.1, p.2))
          | none => none
    else (parseStrBody cs).map (fun p => (c :: p.1, p.2))

mutual
/-- Recursive-descent reader for one JSON value, modelling
`Json::Reader::readValue`; the first argument is recursion fuel. -/
def parseVal : Nat → List Char → Option (Json × List Char)
  | 0, _ => none
  | fuel + 1, cs =>
    match skipWs cs with
    | [] => none
    | c :: rest =>
      if c = 'n' then
        match rest with
        | 'u' :: 'l' :: 'l' :: r => some (.null, r)
        | _ => none
      else if c = 't' then
        match rest with
        | 'r' :: 'u' :: 'e' :: r => some (.bool true, r)
        | _ => none
      else if c = 'f' then
        match rest with
        | 'a' :: 'l' :: 's' :: 'e' :: r => some (.bool false, r)
        | _ => none
      else if c = '"' then
        match parseStrBody rest with
        | some (sc, r) => some (.str ⟨sc⟩, r)
        | none => none
      else if c = '[' then
        match skipWs rest with
        | ']' :: r => some (.arr [], r)
        | _ => parseArrItems fuel rest []
      else if c = '{' then
        match skipWs rest with
        | '}' :: r => some (.obj [], r)
        | _ => parseObjItems fuel rest (.obj [])
      else if c = '-' then
        match takeDigits rest with
        | ([], _) => none
        | (ds, r) => some (.num (-(digitsVal ds : Int)), r)
      else if isDigitChar c then
        let p := takeDigits (c :: rest)
        some (.num (digitsVal p.1), p.2)
      else none

/-- Element loop of `Json::Reader::readArray`. -/
def parseArrItems : Nat → List Char → List Json → Option (Json × List Char)
  | 0, _, _ => none
  | fuel + 1, cs, acc =>
    match parseVal fuel cs with
    | none => none
    | some (v, r) =>
      match skipWs r with
      | ',' :: r2 => parseArrItems fuel r2 (acc ++ [v])
      | ']' :: r2 => some (.arr (acc ++ [v]), r2)
      | _ => none

/-- Member loop of `Json::Reader::readObject`; members accumulate through
`objSet`, so a duplicated key overwrites, as map insertion does. -/
def parseObjItems : Nat → List Char → Json → Option (Json × List Char)
  | 0, _, _ => none
  | fuel + 1, cs, acc =>
    match skipWs cs with
    | '"' :: r =>
      (match parseStrBody r with
       | none => none
       | some (key, r2) =>
         match skipWs r2 with
         | ':' :: r3 =>
           (match parseVal fuel r3 with
            | none => none
            | some (v, r4) =>
              let acc2 := objSet acc ⟨key⟩ v
              match skipWs r4 with
              | ',' :: r5 => parseObjItems fuel r5 acc2
              | '}' :: r5 => some (acc2, r5)
              | _ => none)
         | _ => none)
    | _ => none
end

/-- Whole-document parse, modelling `Json::Reader::parse`: one value,
surrounded by optional whitespace. -/
def parseJson (s : String) : Option Json :=
  match parseVal (s.data.length + 1) s.data with
  | some (v, rest) => if skipWs rest = [] then some v else none
  | none => none

/-- Layout test of the styled writer's `isMultineArray`: an array is put on
several lines when it is long, contains a non-empty container, or its
single-line rendering would overflow the right margin of 74 columns. -/
def isMultilineArr (es : List Json) : Bool :=
  decide (es.length * 3 ≥ 74) ||
  es.any (fun c =>
    match c with
    | .arr (_ :: _) => true
    | .obj (_ :: _) => true
    | _ => false) ||
  decide (4 + (es.length - 1) * 2 + (es.map (fun c => (fastVal c).length)).sum ≥ 74)

/-- Indentation of the styled writer (three spaces per level). -/
def indentChars (lvl : Nat) : List Char :=
  List.replicate (3 * lvl) ' '

mutual
/-- Styled rendering of one value at an indentation level, modelling
jsoncpp's styled writer: leaves render compactly, non-empty objects and
long arrays go one element per line, short leaf-only arrays stay on one
line. -/
def styledVal : Nat → Json → List Char
  | _, .null => ['n', 'u', 'l', 'l']
  | _, .bool b => if b then ['t', 'r', 'u', 'e'] else ['f', 'a', 'l', 's', 'e']
  | _, .num n => intChars n
  | _, .str s => quoteStr s
  | _, .arr [] => ['[', ']']
  | lvl, .arr (e :: es) =>
    if isMultilineArr (e :: es) then
      '[' :: styledItemsML (lvl + 1) (e :: es) ++ '\n' :: indentChars lvl ++ [']']
    else
      '[' :: ' ' :: styledItemsSL (e :: es) ++ [' ', ']']
  | _, .obj [] => ['{', '}']
  | lvl, .obj (m :: ms) =>
    '{' :: styledMembers (lvl + 1) (m :: ms) ++ '\n' :: indentChars lvl ++ ['}']

/-- Multi-line array elements: each on its own indented line. -/
def styledItemsML : Nat → List Json → List Char
  | _, [] => []
  | lvl, [v] => '\n' :: indentChars lvl ++ styledVal lvl v
  | lvl, v :: vs => '\n' :: indentChars lvl ++ styledVal lvl v ++ ',' :: styledItemsML lvl vs

/-- Single-line array elements, comma-and-space separated. -/
def styledItemsSL : List Json → List Char
  | [] => []
  | [v] => styledVal 0 v
  | v :: vs => styledVal 0 v ++ ',' :: ' ' :: styledItemsSL vs

/-- Object members: each on its own indented line as `"key" : value`. -/
def styledMembers : Nat → List (String × Json) → List Char
  | _, [] => []
  | lvl, [(k, v)] => '\n' :: indentChars lvl ++ quoteStr k ++ ' ' :: ':' :: ' ' :: styledVal lvl v
  | lvl, (k, v) :: ms =>
    '\n' :: indentChars lvl ++ quoteStr k ++ ' ' :: ':' :: ' ' :: styledVal lvl v ++
      ',' :: styledMembers lvl ms
end

/-- Output of `Value::toStyledString()`: the styled rendering followed by a
newline. -/
def toStyledString (v : Json) : String :=
  ⟨styledVal 0 v ++ ['\n']⟩

/-- Lifecycle stage of the streaming session. The concrete client keeps no
stage variable; the stage is the defunctionalized control state — which
asynchronous operation is outstanding, or which error handler ended the
session. -/
inductive Stage where
  | Init
  | Resolving
  | Connecting
  | SecureHandshaking
  | ProtocolHandshaking
  | Subscribing
  | Streaming
  | Failed (stage : String)
deriving DecidableEq

/-- Network operation issued by the session; `readOp` records the size of
the receive buffer at the moment the read is issued. -/
inductive NetOp where
  | resolveOp (host port : String)
  | connectOp
  | sslHandshakeOp
  | wsHandshakeOp (host target : String)
  | writeOp (frame : String)
  | readOp (bufSize : Nat)
deriving DecidableEq

/-- Chronological trace event: a stage entry, an issued network operation,
an output-channel emission, or a diagnostic-channel emission. -/
inductive TrEv where
  | enter (st : Stage)
  | op (o : NetOp)
  | out (s : String)
  | err (s : String)
deriving DecidableEq

/-- Session state of `WebSocketClient`: stored host, stored instrument, the
receive buffer, and the defunctionalized stage. -/
structure Session where
  host : String
  instrument : String
  buffer : String
  stage : Stage
deriving DecidableEq

/-- Completion outcomes supplied by the network environment: one outcome
per setup-stage operation (`error msg` or success, the connect success
carrying the peer port) and a list of read completions (`error msg` or a
delivered payload). -/
structure Env where
  resolveRes : Except String Unit
  connectRes : Except String Nat
  sslRes : Except String Unit
  hsRes : Except String Unit
  writeRes : Except String Unit
  readRes : List (Except String String)

/-- Error handler `WebSocketClient::fail`: writes `what: message` to the
diagnostic channel; the session's control state becomes `Failed what` (the
handler returns without issuing any operation). -/
def fail (s : Session) (what : String) (ecMsg : String) : Session × List TrEv :=
  ({ s with stage := .Failed what },
   [.err (what ++ ": " ++ ecMsg ++ "\n"), .enter (.Failed what)])

/-- Message pump `read`/`on_read`: issue a read; on completion either fail
terminally (transport error) or append the payload to the buffer, parse the
buffer contents, emit the styled value or a parse diagnostic, drain the
buffer, and loop. A finite completion list models a pump waiting on its
next read. -/
def readLoop : Session → List (Except String String) → Session × List TrEv
  | s, [] => (s, [.op (.readOp s.buffer.length)])
  | s, .error msg :: _ =>
    let f := fail s "read" msg
    (f.1, .op (.readOp s.buffer.length) :: f.2)
  | s, .ok payload :: rs =>
    let s1 := { s with buffer := s.buffer ++ payload }
    let data := s1.buffer
    let handled : List TrEv :=
      match parseJson data with
      | some root => [.out ("Received message:\n" ++ toStyledString root ++ "\n")]
      | none => [.err ("Failed to parse JSON: " ++ data ++ "\n")]
    let s2 := { s1 with buffer := "" }
    let next := readLoop s2 rs
    (next.1, .op (.readOp s.buffer.length) :: handled ++ next.2)

/-- Write-completion handler `on_write`: on error fail with stage label
`write`; on success enter the streaming stage and start the message pump. -/
def on_write (s : Session) (env : Env) : Session × List TrEv :=
  match env.writeRes with
  | .error msg => fail s "write" msg
  | .ok _ =>
    let s' := { s with stage := Stage.Streaming }
    let next := readLoop s' env.readRes
    (next.1, .enter .Streaming :: next.2)

/-- Subscription protocol `subscribe_to_orderbook`: build the request,
serialize it compactly, and issue the single frame write. -/
def subscribe_to_orderbook (s : Session) (env : Env) : Session × List TrEv :=
  let message := subscribeFrame s.instrument
  let s' := { s with stage := Stage.Subscribing }
  let next := on_write s' env
  (next.1, .enter .Subscribing :: .op (.writeOp message) :: next.2)

/-- WebSocket-handshake completion handler `on_handshake`. -/
def on_handshake (s : Session) (env : Env) : Session × List TrEv :=
  match env.hsRes with
  | .error msg => fail s "handshake" msg
  | .ok _ => subscribe_to_orderbook s env

/-- SSL-handshake completion handler `on_ssl_handshake`: disable the
timeout and issue the WebSocket upgrade at `/ws/api/v2` against the stored
host identity. -/
def on_ssl_handshake (s : Session) (env : Env) : Session × List TrEv :=
  match env.sslRes with
  | .error msg => fail s "ssl_handshake" msg
  | .ok _ =>
    let s' := { s with stage := Stage.ProtocolHandshaking }
    let next := on_handshake s' env
    (next.1, .enter .ProtocolHandshaking :: .op (.wsHandshakeOp s.host "/ws/api/v2") :: next.2)

/-- Connect completion handler `on_connect`: append the peer port to the
stored host and issue the SSL handshake. -/
def on_connect (s : Session) (env : Env) : Session × List TrEv :=
  match env.connectRes with
  | .error msg => fail s "connect" msg
  | .ok port =>
    let s' := { s with host := s.host ++ ":" ++ toString port,
                       stage := Stage.SecureHandshaking }
    let next := on_ssl_handshake s' env
    (next.1, .enter .SecureHandshaking :: .op .sslHandshakeOp :: next.2)

/-- Resolve completion handler `on_resolve`: issue the connect attempt. -/
def on_resolve (s : Session) (env : Env) : Session × List TrEv :=
  match env.resolveRes with
  | .error msg => fail s "resolve" msg
  | .ok _ =>
    let s' := { s with stage := Stage.Connecting }
    let next := on_connect s' env
    (next.1, .enter .Connecting :: .op .connectOp :: next.2)

/-- Session entry point `run`: store host and instrument and issue the
asynchronous resolve. -/
def runClient (host port instrument : String) (env : Env) : Session × List TrEv :=
  let s : Session := { host := host, instrument := instrument, buffer := "", stage := .Init }
  let s' := { s with stage := Stage.Resolving }
  let next := on_resolve s' env
  (next.1, .enter .Init :: .enter .Resolving :: .op (.resolveOp host port) :: next.2)

/-- Event trace of one full session against the fixed exchange endpoint. -/
def clientTrace (instrument : String) (env : Env) : List TrEv :=
  (runClient "www.deribit.com" "443" instrument env).2

/-- Process-level environment: an exception message raised while
constructing the networking context inside the `try` block, if any, plus
the network environment. -/
structure ProcEnv where
  ctorFail : Option String
  net : Env

/-- Process entry point `main`: read the instrument; an empty instrument
exits with `EXIT_FAILURE` before any networking object exists; a
context-construction exception is caught and also exits with
`EXIT_FAILURE`; otherwise the client session runs to quiescence and `main`
returns `EXIT_SUCCESS`. -/
def mainRun (instrument : String) (penv : ProcEnv) : Int × List TrEv :=
  if instrument.isEmpty then
    (1, [.err "Error: Instrument name cannot be empty.\n"])
  else
    match penv.ctorFail with
    | some emsg => (1, [.err ("Error: " ++ emsg ++ "\n")])
    | none => (0, clientTrace instrument penv.net)

/-- Stages entered along a trace, in order. -/
def stagesOf (evs : List TrEv) : List Stage :=
  evs.filterMap fun e =>
    match e with
    | .enter st => some st
    | _ => none

/-- Test for a frame-write event. -/
def isWriteEv : TrEv → Bool
  | .op (.writeOp _) => true
  | _ => false

/-- Test for any issued network operation. -/
def isOpEv : TrEv → Bool
  | .op _ => true
  | _ => false

/-- Holds unless the event is a read issued over a non-empty buffer. -/
def readSizeZero : TrEv → Bool
  | .op (.readOp n) => n == 0
  | _ => true

/-- Success test for a completion outcome. -/
def exceptOk {ε α : Type} : Except ε α → Bool
  | .ok _ => true
  | .error _ => false

/-- Setup succeeded through the WebSocket protocol handshake. -/
def setupOk (env : Env) : Bool :=
  exceptOk env.resolveRes && exceptOk env.connectRes && exceptOk env.sslRes &&
    exceptOk env.hsRes

/-- The seven lifecycle stages, in their strict order. -/
def fullStages : List Stage :=
  [.Init, .Resolving, .Connecting, .SecureHandshaking, .ProtocolHandshaking,
   .Subscribing, .Streaming]

def AllWs (w : List Char) : Prop := ∀ c ∈ w, isWsChar c = true

def noDigitHead (rest : List Char) : Prop :=
  ∀ c t, rest = c :: t → isDigitChar c = false

def keyLtAll (k : String) : List (String × Json) → Bool
  | [] => true
  | m :: ms => keyLt k m.1 && keyLtAll k ms

def sortedKeys : List (String × Json) → Bool
  | [] => true
  | m :: ms => keyLtAll m.1 ms && sortedKeys ms

mutual
def wfJ : Json → Bool
  | .null => true
  | .bool _ => true
  | .num _ => true
  | .str _ => true
  | .arr es => wfItems es
  | .obj ms => sortedKeys ms && wfMembers ms

def wfItems : List Json → Bool
  | [] => true
  | v :: vs => wfJ v && wfItems vs

def wfMembers : List (String × Json) → Bool
  | [] => true
  | (_, v) :: ms => wfJ v && wfMembers ms
end

mutual
def sizeJ : Json → Nat
  | .null => 1
  | .bool _ => 1
  | .num _ => 1
  | .str _ => 1
  | .arr es => 1 + sizeItems es
  | .obj ms => 1 + sizeMembers ms

def sizeItems : List Json → Nat
  | [] => 0
  | v :: vs => sizeJ v + sizeItems vs

def sizeMembers : List (String × Json) → Nat
  | [] => 0
  | (_, v) :: ms => sizeJ v + sizeMembers ms
end

theorem stagesOf_nil : stagesOf [] = [] := rfl

theorem stagesOf_cons_enter (st : Stage) (evs : List TrEv) :
    stagesOf (.enter st :: evs) = st :: stagesOf evs := rfl

theorem stagesOf_cons_op (o : NetOp) (evs : List TrEv) :
    stagesOf (.op o :: evs) = stagesOf evs := rfl

theorem stagesOf_cons_out (m : String) (evs : List TrEv) :
    stagesOf (.out m :: evs) = stagesOf evs := rfl

theorem stagesOf_cons_err (m : String) (evs : List TrEv) :
    stagesOf (.err m :: evs) = stagesOf evs := rfl

theorem stagesOf_append (a b : List TrEv) :
    stagesOf (a ++ b) = stagesOf a ++ stagesOf b := by
  simp [stagesOf]

theorem readLoop_evs_head (s : Session) (rs : List (Except String String)) :
    ∃ t, (readLoop s rs).2 = .op (.readOp s.buffer.length) :: t := by
  cases rs with
  | nil => exact ⟨[], rfl⟩
  | cons r rs =>
    cases r with
    | error msg => exact ⟨_, rfl⟩
    | ok p => exact ⟨_, rfl⟩

theorem readLoop_stages (s : Session) (rs : List (Except String String)) :
    stagesOf (readLoop s rs).2 = [] ∨ stagesOf (readLoop s rs).2 = [.Failed "read"] := by
  induction rs generalizing s with
  | nil => left; rfl
  | cons r rs ih =>
    cases r with
    | error msg => right; rfl
    | ok p =>
      cases hp : parseJson (s.buffer ++ p) with
      | none =>
        simpa [readLoop, hp, stagesOf_cons_op, stagesOf_cons_err, stagesOf_append] using
          ih _
      | some root =>
        simpa [readLoop, hp, stagesOf_cons_op, stagesOf_cons_out, stagesOf_append] using
          ih _



theorem dropLast_append_right {α : Type} (a b : List α) (h : b ≠ []) :
    (a ++ b).dropLast = a ++ b.dropLast := by
  induction a with
  | nil => rfl
  | cons x a ih =>
    cases a with
    | nil =>
      cases b with
      | nil => exact absurd rfl h
      | cons y b => simp [List.dropLast]
    | cons z a =>
      simp only [List.cons_append, List.dropLast_cons₂]
      simpa using ih

theorem mem_dropLast_of_eq_append_cons {α : Type} {l l1 l2 : List α} {x : α}
    (h : l = l1 ++ x :: l2) (h2 : l2 ≠ []) : x ∈ l.dropLast := by
  subst h
  rw [show l1 ++ x :: l2 = (l1 ++ [x]) ++ l2 by simp]
  rw [dropLast_append_right _ _ h2]
  simp

theorem readLoop_ne_nil (s : Session) (rs : List (Except String String)) :
    (readLoop s rs).2 ≠ [] := by
  obtain ⟨t, ht⟩ := readLoop_evs_head s rs
  simp [ht]

theorem readLoop_failed_last (s : Session) (rs : List (Except String String)) (w : String) :
    TrEv.enter (.Failed w) ∉ ((readLoop s rs).2).dropLast := by
  induction rs generalizing s with
  | nil => simp [readLoop]
  | cons r rs ih =>
    cases r with
    | error msg => simp [readLoop, fail, List.dropLast]
    | ok p =>
      have hne := readLoop_ne_nil { s with buffer := "" } rs
      cases hp : parseJson (s.buffer ++ p) with
      | none =>
        rw [show (readLoop s (.ok p :: rs)).2 =
          (TrEv.op (.readOp s.buffer.length) :: [TrEv.err ("Failed to parse JSON: " ++ (s.buffer ++ p) ++ "\n")]) ++ (readLoop { s with buffer := "" } rs).2 by
            simp [readLoop, hp]]
        rw [dropLast_append_right _ _ (readLoop_ne_nil _ _)]
        simpa using ih _
      | some root =>
        rw [show (readLoop s (.ok p :: rs)).2 =
          (TrEv.op (.readOp s.buffer.length) :: [TrEv.out ("Received message:\n" ++ toStyledString root ++ "\n")]) ++ (readLoop { s with buffer := "" } rs).2 by
            simp [readLoop, hp]]
        rw [dropLast_append_right _ _ (readLoop_ne_nil _ _)]
        simpa using ih _

theorem readLoop_no_write (s : Session) (rs : List (Except String String)) :
    ((readLoop s rs).2).all (fun e => !isWriteEv e) = true := by
  induction rs generalizing s with
  | nil => simp [readLoop, isWriteEv]
  | cons r rs ih =>
    cases r with
    | error msg => simp [readLoop, fail, isWriteEv]
    | ok p =>
      cases hp : parseJson (s.buffer ++ p) with
      | none => simpa [readLoop, hp, isWriteEv] using ih _
      | some root => simpa [readLoop, hp, isWriteEv] using ih _

theorem readLoop_sizes (s : Session) (rs : List (Except String String)) (hb : s.buffer = "") :
    ((readLoop s rs).2).all readSizeZero = true := by
  induction rs generalizing s with
  | nil => simp [readLoop, readSizeZero, hb]
  | cons r rs ih =>
    cases r with
    | error msg => simp [readLoop, fail, readSizeZero, hb]
    | ok p =>
      have hq : s.buffer ++ p = p := by rw [hb]; simp
      cases hp : parseJson p with
      | none =>
        simpa [readLoop, hq, hp, readSizeZero, hb] using
          ih { s with buffer := "" } rfl
      | some root =>
        simpa [readLoop, hq, hp, readSizeZero, hb] using
          ih { s with buffer := "" } rfl

theorem stages_shape (i : String) (env : Env) :
    stagesOf (clientTrace i env) = [.Init, .Resolving, .Failed "resolve"] ∨
    stagesOf (clientTrace i env) = [.Init, .Resolving, .Connecting, .Failed "connect"] ∨
    stagesOf (clientTrace i env) =
      [.Init, .Resolving, .Connecting, .SecureHandshaking, .Failed "ssl_handshake"] ∨
    stagesOf (clientTrace i env) =
      [.Init, .Resolving, .Connecting, .SecureHandshaking, .ProtocolHandshaking,
       .Failed "handshake"] ∨
    stagesOf (clientTrace i env) =
      [.Init, .Resolving, .Connecting, .SecureHandshaking, .ProtocolHandshaking,
       .Subscribing, .Failed "write"] ∨
    stagesOf (clientTrace i env) = fullStages ∨
    stagesOf (clientTrace i env) = fullStages ++ [.Failed "read"] := by
  obtain ⟨r, c, sl, hs, w, rd⟩ := env
  cases r with
  | error m =>
    exact Or.inl (by
      simp [clientTrace, runClient, on_resolve, fail, stagesOf_cons_enter, stagesOf_cons_op,
        stagesOf_cons_err, stagesOf_nil])
  | ok u =>
    cases c with
    | error m =>
      exact Or.inr (Or.inl (by
        simp [clientTrace, runClient, on_resolve, on_connect, fail, stagesOf_cons_enter,
          stagesOf_cons_op, stagesOf_cons_err, stagesOf_nil]))
    | ok port =>
      cases sl with
      | error m =>
        exact Or.inr (Or.inr (Or.inl (by
          simp [clientTrace, runClient, on_resolve, on_connect, on_ssl_handshake, fail,
            stagesOf_cons_enter, stagesOf_cons_op, stagesOf_cons_err, stagesOf_nil])))
      | ok u2 =>
        cases hs with
        | error m =>
          exact Or.inr (Or.inr (Or.inr (Or.inl (by
            simp [clientTrace, runClient, on_resolve, on_connect, on_ssl_handshake,
              on_handshake, fail, stagesOf_cons_enter, stagesOf_cons_op, stagesOf_cons_err,
              stagesOf_nil]))))
        | ok u3 =>
          cases w with
          | error m =>
            exact Or.inr (Or.inr (Or.inr (Or.inr (Or.inl (by
              simp [clientTrace, runClient, on_resolve, on_connect, on_ssl_handshake,
                on_handshake, subscribe_to_orderbook, on_write, fail, stagesOf_cons_enter,
                stagesOf_cons_op, stagesOf_cons_err, stagesOf_nil])))))
          | ok u4 =>
            rcases readLoop_stages
              { host := "www.deribit.com:" ++ toString port, instrument := i,
                buffer := "", stage := Stage.Streaming } rd with h | h
            · refine Or.inr (Or.inr (Or.inr (Or.inr (Or.inr (Or.inl ?_)))))
              simp [clientTrace, runClient, on_resolve, on_connect, on_ssl_handshake,
                on_handshake, subscribe_to_orderbook, on_write, fullStages,
                stagesOf_cons_enter, stagesOf_cons_op, stagesOf_append, h]
            · refine Or.inr (Or.inr (Or.inr (Or.inr (Or.inr (Or.inr ?_)))))
              simp [clientTrace, runClient, on_resolve, on_connect, on_ssl_handshake,
                on_handshake, subscribe_to_orderbook, on_write, fullStages,
                stagesOf_cons_enter, stagesOf_cons_op, stagesOf_append, h]

theorem dropLast_cons_of_ne_nil {α : Type} (x : α) (l : List α) (h : l ≠ []) :
    (x :: l).dropLast = x :: l.dropLast := by
  cases l with
  | nil => exact absurd rfl h
  | cons y l => simp [List.dropLast_cons₂]

theorem nfbl_cons (x : TrEv) (evs : List TrEv)
    (h : evs ≠ [] ∧ ∀ w, TrEv.enter (.Failed w) ∉ evs.dropLast)
    (hx : ∀ w, x ≠ .enter (.Failed w)) :
    (x :: evs) ≠ [] ∧ ∀ w, TrEv.enter (.Failed w) ∉ (x :: evs).dropLast := by
  refine ⟨by simp, fun w => ?_⟩
  rw [dropLast_cons_of_ne_nil _ _ h.1]
  intro hm
  rcases List.mem_cons.mp hm with hm | hm
  · exact hx w hm.symm
  · exact h.2 w hm

theorem nfbl_fail (s : Session) (what m : String) :
    (fail s what m).2 ≠ [] ∧ ∀ w, TrEv.enter (.Failed w) ∉ ((fail s what m).2).dropLast := by
  refine ⟨by simp [fail], fun w => ?_⟩
  simp [fail, List.dropLast]

theorem nfbl_readLoop (s : Session) (rs : List (Except String String)) :
    (readLoop s rs).2 ≠ [] ∧ ∀ w, TrEv.enter (.Failed w) ∉ ((readLoop s rs).2).dropLast :=
  ⟨readLoop_ne_nil s rs, readLoop_failed_last s rs⟩

theorem nfbl_on_write (s : Session) (env : Env) :
    (on_write s env).2 ≠ [] ∧ ∀ w, TrEv.enter (.Failed w) ∉ ((on_write s env).2).dropLast := by
  cases hw : env.writeRes with
  | error m => simpa [on_write, hw] using nfbl_fail s "write" m
  | ok u =>
    have h1 := nfbl_cons (.enter .Streaming) _
      (nfbl_readLoop { s with stage := Stage.Streaming } env.readRes) (fun w => by simp)
    simpa [on_write, hw] using h1

theorem nfbl_subscribe (s : Session) (env : Env) :
    (subscribe_to_orderbook s env).2 ≠ [] ∧
      ∀ w, TrEv.enter (.Failed w) ∉ ((subscribe_to_orderbook s env).2).dropLast := by
  have h1 := nfbl_cons (.op (.writeOp (subscribeFrame s.instrument))) _
    (nfbl_on_write { s with stage := Stage.Subscribing } env) (fun w => by simp)
  have h2 := nfbl_cons (.enter .Subscribing) _ h1 (fun w => by simp)
  simpa [subscribe_to_orderbook] using h2

theorem nfbl_on_handshake (s : Session) (env : Env) :
    (on_handshake s env).2 ≠ [] ∧
      ∀ w, TrEv.enter (.Failed w) ∉ ((on_handshake s env).2).dropLast := by
  cases hh : env.hsRes with
  | error m => simpa [on_handshake, hh] using nfbl_fail s "handshake" m
  | ok u => simpa [on_handshake, hh] using nfbl_subscribe s env

theorem nfbl_on_ssl (s : Session) (env : Env) :
    (on_ssl_handshake s env).2 ≠ [] ∧
      ∀ w, TrEv.enter (.Failed w) ∉ ((on_ssl_handshake s env).2).dropLast := by
  cases hh : env.sslRes with
  | error m => simpa [on_ssl_handshake, hh] using nfbl_fail s "ssl_handshake" m
  | ok u =>
    have h1 := nfbl_cons (.op (.wsHandshakeOp s.host "/ws/api/v2")) _
      (nfbl_on_handshake { s with stage := Stage.ProtocolHandshaking } env) (fun w => by simp)
    have h2 := nfbl_cons (.enter .ProtocolHandshaking) _ h1 (fun w => by simp)
    simpa [on_ssl_handshake, hh] using h2

theorem nfbl_on_connect (s : Session) (env : Env) :
    (on_connect s env).2 ≠ [] ∧
      ∀ w, TrEv.enter (.Failed w) ∉ ((on_connect s env).2).dropLast := by
  cases hh : env.connectRes with
  | error m => simpa [on_connect, hh] using nfbl_fail s "connect" m
  | ok port =>
    have h1 := nfbl_cons (.op .sslHandshakeOp) _
      (nfbl_on_ssl { s with host := s.host ++ ":" ++ toString port,
                            stage := Stage.SecureHandshaking } env) (fun w => by simp)
    have h2 := nfbl_cons (.enter .SecureHandshaking) _ h1 (fun w => by simp)
    simpa [on_connect, hh] using h2

theorem nfbl_on_resolve (s : Session) (env : Env) :
    (on_resolve s env).2 ≠ [] ∧
      ∀ w, TrEv.enter (.Failed w) ∉ ((on_resolve s env).2).dropLast := by
  cases hh : env.resolveRes with
  | error m => simpa [on_resolve, hh] using nfbl_fail s "resolve" m
  | ok u =>
    have h1 := nfbl_cons (.op .connectOp) _
      (nfbl_on_connect { s with stage := Stage.Connecting } env) (fun w => by simp)
    have h2 := nfbl_cons (.enter .Connecting) _ h1 (fun w => by simp)
    simpa [on_resolve, hh] using h2

theorem nfbl_clientTrace (i : String) (env : Env) :
    clientTrace i env ≠ [] ∧ ∀ w, TrEv.enter (.Failed w) ∉ (clientTrace i env).dropLast := by
  have h1 := nfbl_cons (.op (.resolveOp "www.deribit.com" "443")) _
    (nfbl_on_resolve { host := "www.deribit.com", instrument := i, buffer := "",
                       stage := Stage.Resolving } env) (fun w => by simp)
  have h2 := nfbl_cons (.enter .Resolving) _ h1 (fun w => by simp)
  have h3 := nfbl_cons (.enter .Init) _ h2 (fun w => by simp)
  simpa [clientTrace, runClient] using h3

theorem writes_fail (s : Session) (what m : String) :
    ((fail s what m).2).countP isWriteEv = 0 := rfl

theorem writes_readLoop (s : Session) (rs : List (Except String String)) :
    ((readLoop s rs).2).countP isWriteEv = 0 := by
  refine List.countP_eq_zero.mpr fun e he => ?_
  have h := List.all_eq_true.mp (readLoop_no_write s rs) e he
  simp at h
  simp [h]

theorem writes_on_write (s : Session) (env : Env) :
    ((on_write s env).2).countP isWriteEv = 0 := by
  cases hw : env.writeRes with
  | error m => simp [on_write, hw, writes_fail]
  | ok u => simp [on_write, hw, List.countP_cons, writes_readLoop, isWriteEv]

theorem writes_subscribe (s : Session) (env : Env) :
    ((subscribe_to_orderbook s env).2).countP isWriteEv = 1 := by
  simp [subscribe_to_orderbook, List.countP_cons, writes_on_write, isWriteEv]

theorem writes_on_handshake (s : Session) (env : Env) :
    ((on_handshake s env).2).countP isWriteEv = if exceptOk env.hsRes then 1 else 0 := by
  cases hh : env.hsRes with
  | error m => simp [on_handshake, hh, writes_fail, exceptOk]
  | ok u => simp [on_handshake, hh, writes_subscribe, exceptOk]

theorem writes_on_ssl (s : Session) (env : Env) :
    ((on_ssl_handshake s env).2).countP isWriteEv =
      if exceptOk env.sslRes && exceptOk env.hsRes then 1 else 0 := by
  cases hh : env.sslRes with
  | error m => simp [on_ssl_handshake, hh, writes_fail, exceptOk]
  | ok u =>
    simp [on_ssl_handshake, hh, List.countP_cons, writes_on_handshake, exceptOk, isWriteEv]

theorem writes_on_connect (s : Session) (env : Env) :
    ((on_connect s env).2).countP isWriteEv =
      if exceptOk env.connectRes && (exceptOk env.sslRes && exceptOk env.hsRes)
      then 1 else 0 := by
  cases hh : env.connectRes with
  | error m => simp [on_connect, hh, writes_fail, exceptOk]
  | ok port =>
    simp [on_connect, hh, List.countP_cons, writes_on_ssl, exceptOk, isWriteEv]

theorem writes_on_resolve (s : Session) (env : Env) :
    ((on_resolve s env).2).countP isWriteEv = if setupOk env then 1 else 0 := by
  cases hh : env.resolveRes with
  | error m => simp [on_resolve, hh, writes_fail, setupOk, exceptOk]
  | ok u =>
    simp [on_resolve, hh, List.countP_cons, writes_on_connect, setupOk, exceptOk, isWriteEv,
      Bool.and_assoc]

theorem writes_clientTrace (i : String) (env : Env) :
    (clientTrace i env).countP isWriteEv = if setupOk env then 1 else 0 := by
  simp [clientTrace, runClient, List.countP_cons, writes_on_resolve, isWriteEv]

theorem frame_readLoop (s : Session) (rs : List (Except String String)) (f : String)
    (h : TrEv.op (.writeOp f) ∈ (readLoop s rs).2) : False := by
  have h2 := List.all_eq_true.mp (readLoop_no_write s rs) _ h
  simp [isWriteEv] at h2

theorem frame_on_write (s : Session) (env : Env) (f : String)
    (h : TrEv.op (.writeOp f) ∈ (on_write s env).2) : False := by
  cases hw : env.writeRes with
  | error m => rw [on_write, hw] at h; simp [fail] at h
  | ok u =>
    rw [on_write, hw] at h
    simp at h
    exact frame_readLoop _ _ _ h

theorem frame_subscribe (s : Session) (env : Env) (f : String)
    (h : TrEv.op (.writeOp f) ∈ (subscribe_to_orderbook s env).2) :
    f = subscribeFrame s.instrument := by
  rw [subscribe_to_orderbook] at h
  simp only [List.mem_cons] at h
  rcases h with h | h | h
  · exact absurd h (by simp)
  · simpa using h
  · exact absurd h (fun hm => frame_on_write { s with stage := Stage.Subscribing } env f hm)

theorem frame_on_handshake (s : Session) (env : Env) (f : String)
    (h : TrEv.op (.writeOp f) ∈ (on_handshake s env).2) :
    f = subscribeFrame s.instrument := by
  cases hh : env.hsRes with
  | error m => rw [on_handshake, hh] at h; simp [fail] at h
  | ok u =>
    rw [on_handshake, hh] at h
    exact frame_subscribe s env f h

theorem frame_on_ssl (s : Session) (env : Env) (f : String)
    (h : TrEv.op (.writeOp f) ∈ (on_ssl_handshake s env).2) :
    f = subscribeFrame s.instrument := by
  cases hh : env.sslRes with
  | error m => rw [on_ssl_handshake, hh] at h; simp [fail] at h
  | ok u =>
    rw [on_ssl_handshake, hh] at h
    simp only [List.mem_cons] at h
    rcases h with h | h | h
    · exact absurd h (by simp)
    · exact absurd h (by simp)
    · simpa using frame_on_handshake { s with stage := Stage.ProtocolHandshaking } env f h

theorem frame_on_connect (s : Session) (env : Env) (f : String)
    (h : TrEv.op (.writeOp f) ∈ (on_connect s env).2) :
    f = subscribeFrame s.instrument := by
  cases hh : env.connectRes with
  | error m => rw [on_connect, hh] at h; simp [fail] at h
  | ok port =>
    rw [on_connect, hh] at h
    simp only [List.mem_cons] at h
    rcases h with h | h | h
    · exact absurd h (by simp)
    · exact absurd h (by simp)
    · simpa using frame_on_ssl { s with host := s.host ++ ":" ++ toString port, stage := Stage.SecureHandshaking } env f h

theorem frame_on_resolve (s : Session) (env : Env) (f : String)
    (h : TrEv.op (.writeOp f) ∈ (on_resolve s env).2) :
    f = subscribeFrame s.instrument := by
  cases hh : env.resolveRes with
  | error m => rw [on_resolve, hh] at h; simp [fail] at h
  | ok u =>
    rw [on_resolve, hh] at h
    simp only [List.mem_cons] at h
    rcases h with h | h | h
    · exact absurd h (by simp)
    · exact absurd h (by simp)
    · simpa using frame_on_connect { s with stage := Stage.Connecting } env f h

theorem frame_clientTrace (i : String) (env : Env) (f : String)
    (h : TrEv.op (.writeOp f) ∈ clientTrace i env) : f = subscribeFrame i := by
  rw [clientTrace, runClient] at h
  simp only [List.mem_cons] at h
  rcases h with h | h | h | h
  · exact absurd h (by simp)
  · exact absurd h (by simp)
  · exact absurd h (by simp)
  · simpa using frame_on_resolve { host := "www.deribit.com", instrument := i, buffer := "", stage := Stage.Resolving } env f h

theorem sizes_fail (s : Session) (what m : String) :
    ((fail s what m).2).all readSizeZero = true := rfl

theorem sizes_on_write (s : Session) (env : Env) (hb : s.buffer = "") :
    ((on_write s env).2).all readSizeZero = true := by
  cases hw : env.writeRes with
  | error m => simp [on_write, hw, sizes_fail]
  | ok u =>
    have h := readLoop_sizes { s with stage := Stage.Streaming } env.readRes hb
    simp [on_write, hw, readSizeZero, h]

theorem sizes_subscribe (s : Session) (env : Env) (hb : s.buffer = "") :
    ((subscribe_to_orderbook s env).2).all readSizeZero = true := by
  have h := sizes_on_write { s with stage := Stage.Subscribing } env hb
  simp [subscribe_to_orderbook, readSizeZero, h]

theorem sizes_on_handshake (s : Session) (env : Env) (hb : s.buffer = "") :
    ((on_handshake s env).2).all readSizeZero = true := by
  cases hh : env.hsRes with
  | error m => simp [on_handshake, hh, sizes_fail]
  | ok u => simpa [on_handshake, hh] using sizes_subscribe s env hb

theorem sizes_on_ssl (s : Session) (env : Env) (hb : s.buffer = "") :
    ((on_ssl_handshake s env).2).all readSizeZero = true := by
  cases hh : env.sslRes with
  | error m => simp [on_ssl_handshake, hh, sizes_fail]
  | ok u =>
    have h := sizes_on_handshake { s with stage := Stage.ProtocolHandshaking } env hb
    simp [on_ssl_handshake, hh, readSizeZero, h]

theorem sizes_on_connect (s : Session) (env : Env) (hb : s.buffer = "") :
    ((on_connect s env).2).all readSizeZero = true := by
  cases hh : env.connectRes with
  | error m => simp [on_connect, hh, sizes_fail]
  | ok port =>
    have h := sizes_on_ssl { s with host := s.host ++ ":" ++ toString port, stage := Stage.SecureHandshaking } env hb
    simp [on_connect, hh, readSizeZero, h]

theorem sizes_on_resolve (s : Session) (env : Env) (hb : s.buffer = "") :
    ((on_resolve s env).2).all readSizeZero = true := by
  cases hh : env.resolveRes with
  | error m => simp [on_resolve, hh, sizes_fail]
  | ok u =>
    have h := sizes_on_connect { s with stage := Stage.Connecting } env hb
    simp [on_resolve, hh, readSizeZero, h]

theorem sizes_clientTrace (i : String) (env : Env) :
    (clientTrace i env).all readSizeZero = true := by
  have h := sizes_on_resolve { host := "www.deribit.com", instrument := i, buffer := "", stage := Stage.Resolving } env rfl
  simp [clientTrace, runClient, readSizeZero, h]

theorem skipWs_append_ws (w cs : List Char) (hw : AllWs w) :
    skipWs (w ++ cs) = skipWs cs := by
  induction w with
  | nil => rfl
  | cons c w ih =>
    have hc := hw c (by simp)
    rw [List.cons_append, skipWs, if_pos hc]
    exact ih (fun c hm => hw c (by simp [hm]))

theorem skipWs_cons_not_ws (c : Char) (cs : List Char) (h : isWsChar c = false) :
    skipWs (c :: cs) = c :: cs := by
  rw [skipWs, if_neg (by simp [h])]

theorem allWs_indent (lvl : Nat) : AllWs (indentChars lvl) := by
  intro c hm
  rw [indentChars] at hm
  have := List.eq_of_mem_replicate hm
  simp [this, isWsChar]

theorem digit_head_props (c : Char) (h : isDigitChar c = true) :
    c ≠ 'n' ∧ c ≠ 't' ∧ c ≠ 'f' ∧ c ≠ '"' ∧ c ≠ '[' ∧ c ≠ '{' ∧ c ≠ '-' ∧
      isWsChar c = false ∧ c ≠ ']' ∧ c ≠ '}' ∧ c ≠ ',' := by
  refine ⟨?_, ?_, ?_, ?_, ?_, ?_, ?_, ?_, ?_, ?_, ?_⟩ <;>
    first
    | (intro hc; rw [hc] at h; simp [isDigitChar] at h)
    | (rw [isWsChar]
       have h1 : ¬ c = ' ' := fun hc => by rw [hc] at h; simp [isDigitChar] at h
       have h2 : ¬ c = '\t' := fun hc => by rw [hc] at h; simp [isDigitChar] at h
       have h3 : ¬ c = '\n' := fun hc => by rw [hc] at h; simp [isDigitChar] at h
       have h4 : ¬ c = '\r' := fun hc => by rw [hc] at h; simp [isDigitChar] at h
       simp [h1, h2, h3, h4])

theorem isDigitChar_digitChar (d : Nat) (h : d < 10) :
    isDigitChar (digitChar d) = true := by
  interval_cases d <;> decide

theorem digitVal_digitChar (d : Nat) (h : d < 10) : digitVal (digitChar d) = d := by
  interval_cases d <;> decide

theorem natDigits_zero (fuel : Nat) : natDigits fuel 0 = [] := by
  cases fuel <;> simp [natDigits]

theorem natDigits_fuel (fuel fuel' n : Nat) (h : n ≤ fuel) (h' : n ≤ fuel') :
    natDigits fuel n = natDigits fuel' n := by
  induction fuel generalizing n fuel' with
  | zero =>
    interval_cases n
    rw [natDigits_zero, natDigits_zero]
  | succ f ih =>
    cases fuel' with
    | zero =>
      interval_cases n
      rw [natDigits_zero, natDigits_zero]
    | succ f' =>
      by_cases h0 : n = 0
      · subst h0; rw [natDigits_zero, natDigits_zero]
      · rw [natDigits, natDigits, if_neg h0, if_neg h0]
        have hlt : n / 10 < n := Nat.div_lt_self (Nat.pos_of_ne_zero h0) (by omega)
        rw [ih f' (n / 10) (by omega) (by omega)]

theorem natChars_small (n : Nat) (h1 : 0 < n) (h2 : n < 10) :
    natChars n = [digitChar n] := by
  obtain ⟨m, rfl⟩ : ∃ m, n = m + 1 := ⟨n - 1, by omega⟩
  rw [natChars, if_neg (by omega), natDigits, if_neg (by omega)]
  have hd : (m + 1) / 10 = 0 := by omega
  rw [hd, natDigits_zero]
  simp [Nat.mod_eq_of_lt h2]

theorem natChars_large (n : Nat) (h : 10 ≤ n) :
    natChars n = natChars (n / 10) ++ [digitChar (n % 10)] := by
  obtain ⟨m, rfl⟩ : ∃ m, n = m + 1 := ⟨n - 1, by omega⟩
  rw [natChars, if_neg (by omega), natDigits, if_neg (by omega)]
  have h10 : 0 < (m + 1) / 10 := Nat.div_pos h (by omega)
  rw [natChars, if_neg (by omega)]
  congr 1
  have hlt : (m + 1) / 10 < m + 1 := Nat.div_lt_self (by omega) (by omega)
  exact natDigits_fuel m ((m + 1) / 10) ((m + 1) / 10) (by omega) (le_refl _)

theorem natChars_ne_nil (n : Nat) : natChars n ≠ [] := by
  by_cases h0 : n = 0
  · subst h0; simp [natChars]
  · by_cases h10 : n < 10
    · rw [natChars_small n (by omega) h10]; simp
    · rw [natChars_large n (by omega)]; simp

theorem natChars_digits (n : Nat) : ∀ c ∈ natChars n, isDigitChar c = true := by
  induction n using Nat.strong_induction_on with
  | _ n ih =>
    by_cases h0 : n = 0
    · subst h0; intro c hc; simp [natChars] at hc; simp [hc]; decide
    · by_cases h10 : n < 10
      · rw [natChars_small n (by omega) h10]
        intro c hc
        simp at hc
        rw [hc]
        exact isDigitChar_digitChar n h10
      · rw [natChars_large n (by omega)]
        intro c hc
        rcases List.mem_append.mp hc with hc | hc
        · exact ih (n / 10) (Nat.div_lt_self (by omega) (by omega)) c hc
        · simp at hc
          rw [hc]
          exact isDigitChar_digitChar (n % 10) (Nat.mod_lt n (by omega))

theorem digitsVal_snoc (ds : List Char) (c : Char) :
    digitsVal (ds ++ [c]) = 10 * digitsVal ds + digitVal c := by
  simp [digitsVal, List.foldl_append]

theorem digitsVal_natChars (n : Nat) : digitsVal (natChars n) = n := by
  induction n using Nat.strong_induction_on with
  | _ n ih =>
    by_cases h0 : n = 0
    · subst h0; decide
    · by_cases h10 : n < 10
      · rw [natChars_small n (by omega) h10]
        have : digitsVal [digitChar n] = digitVal (digitChar n) := by
          simp [digitsVal]
        rw [this, digitVal_digitChar n h10]
      · rw [natChars_large n (by omega), digitsVal_snoc,
          ih (n / 10) (Nat.div_lt_self (by omega) (by omega)),
          digitVal_digitChar (n % 10) (Nat.mod_lt n (by omega))]
        omega

theorem takeDigits_exact (ds rest : List Char) (hds : ∀ c ∈ ds, isDigitChar c = true)
    (hrest : noDigitHead rest) : takeDigits (ds ++ rest) = (ds, rest) := by
  induction ds with
  | nil =>
    simp only [List.nil_append]
    cases rest with
    | nil => rfl
    | cons c t =>
      rw [takeDigits, if_neg (by simp [hrest c t rfl])]
  | cons c ds ih =>
    rw [List.cons_append, takeDigits, if_pos (by simp [hds c (by simp)])]
    rw [ih (fun c hc => hds c (by simp [hc]))]

theorem hexVal_hexChar (d : Nat) (h : d < 16) : hexVal (hexChar d) = some d := by
  interval_cases d <;> decide

theorem psb_quote (cs : List Char) : parseStrBody ('"' :: cs) = some ([], cs) := by
  rw [parseStrBody.eq_def]
  rfl

theorem psb_lit (c : Char) (cs : List Char) (h1 : ¬c = '"') (h2 : ¬c = '\\') :
    parseStrBody (c :: cs) = (parseStrBody cs).map (fun p => (c :: p.1, p.2)) := by
  rw [parseStrBody.eq_def]
  simp only []
  rw [if_neg h1, if_neg h2]

theorem psb_esc2 (e d : Char) (cs : List Char) (hu : ¬e = 'u') (he : escDecode e = some d) :
    parseStrBody ('\\' :: e :: cs) = (parseStrBody cs).map (fun p => (d :: p.1, p.2)) := by
  rw [parseStrBody.eq_def]
  simp only []
  rw [if_neg (by decide : ¬('\\' : Char) = '"')]
  simp only [ite_true]
  rw [if_neg hu, he]

theorem psb_u (h1 h2 h3 h4 : Char) (cs : List Char) (d1 d2 d3 d4 : Nat)
    (e1 : hexVal h1 = some d1) (e2 : hexVal h2 = some d2) (e3 : hexVal h3 = some d3)
    (e4 : hexVal h4 = some d4)
    (hv : (((d1 * 16 + d2) * 16 + d3) * 16 + d4).isValidChar) :
    parseStrBody ('\\' :: 'u' :: h1 :: h2 :: h3 :: h4 :: cs) =
      (parseStrBody cs).map
        (fun p => (Char.ofNat (((d1 * 16 + d2) * 16 + d3) * 16 + d4) :: p.1, p.2)) := by
  rw [parseStrBody.eq_def]
  simp only []
  rw [if_neg (by decide : ¬('\\' : Char) = '"')]
  simp only [ite_true]
  rw [e1, e2, e3, e4]
  simp only []
  rw [if_pos hv]

theorem parseStrBody_esc (l : List Char) (rest : List Char) :
    parseStrBody ((l.map escChar).flatten ++ '"' :: rest) = some (l, rest) := by
  induction l with
  | nil => simp [psb_quote]
  | cons c l ih =>
    simp only [List.map_cons, List.flatten_cons, List.append_assoc]
    rw [escChar]
    by_cases h1 : c = '"'
    · rw [if_pos h1, List.cons_append, List.cons_append, List.nil_append,
        psb_esc2 '"' '"' _ (by decide) (by decide), ih]
      rw [h1]; rfl
    · rw [if_neg h1]
      by_cases h2 : c = '\\'
      · rw [if_pos h2, List.cons_append, List.cons_append, List.nil_append,
          psb_esc2 '\\' '\\' _ (by decide) (by decide), ih]
        rw [h2]; rfl
      · rw [if_neg h2]
        by_cases h3 : c = '\x08'
        · rw [if_pos h3, List.cons_append, List.cons_append, List.nil_append,
            psb_esc2 'b' '\x08' _ (by decide) (by decide), ih]
          rw [h3]; rfl
        · rw [if_neg h3]
          by_cases h4 : c = '\x0c'
          · rw [if_pos h4, List.cons_append, List.cons_append, List.nil_append,
              psb_esc2 'f' '\x0c' _ (by decide) (by decide), ih]
            rw [h4]; rfl
          · rw [if_neg h4]
            by_cases h5 : c = '\n'
            · rw [if_pos h5, List.cons_append, List.cons_append, List.nil_append,
                psb_esc2 'n' '\n' _ (by decide) (by decide), ih]
              rw [h5]; rfl
            · rw [if_neg h5]
              by_cases h6 : c = '\r'
              · rw [if_pos h6, List.cons_append, List.cons_append, List.nil_append,
                  psb_esc2 'r' '\r' _ (by decide) (by decide), ih]
                rw [h6]; rfl
              · rw [if_neg h6]
                by_cases h7 : c = '\t'
                · rw [if_pos h7, List.cons_append, List.cons_append, List.nil_append,
                    psb_esc2 't' '\t' _ (by decide) (by decide), ih]
                  rw [h7]; rfl
                · rw [if_neg h7]
                  by_cases h8 : c.toNat < 32
                  · rw [if_pos h8]
                    simp only [List.cons_append, List.nil_append]
                    rw [psb_u '0' '0' (hexChar (c.toNat / 16)) (hexChar (c.toNat % 16)) _
                        0 0 (c.toNat / 16) (c.toNat % 16) (by decide) (by decide)
                        (hexVal_hexChar _ (by omega)) (hexVal_hexChar _ (by omega))
                        (by
                          have hn : ((0 * 16 + 0) * 16 + c.toNat / 16) * 16 + c.toNat % 16 =
                              c.toNat := by omega
                          rw [hn]
                          exact Or.inl (by omega)), ih]
                    have hn : ((0 * 16 + 0) * 16 + c.toNat / 16) * 16 + c.toNat % 16 =
                        c.toNat := by omega
                    simp only [hn, Char.ofNat_toNat, Option.map_some]
                    rfl
                  · rw [if_neg h8]
                    simp only [List.cons_append, List.nil_append]
                    rw [psb_lit c _ h1 h2, ih]
                    rfl

theorem char_toNat_inj (a b : Char) (h : a.toNat = b.toNat) : a = b := by
  apply Char.ext
  have h2 : a.val.toNat = b.val.toNat := h
  exact UInt32.toNat.inj h2

theorem charsLt_irrefl (a : List Char) : charsLt a a = false := by
  induction a with
  | nil => rfl
  | cons c a ih => simp [charsLt, ih]

theorem charsLt_asymm (a b : List Char) (h : charsLt a b = true) :
    charsLt b a = false := by
  induction a generalizing b with
  | nil =>
    cases b with
    | nil => simp [charsLt] at h
    | cons d b => rfl
  | cons c a ih =>
    cases b with
    | nil => simp [charsLt] at h
    | cons d b =>
      rw [charsLt] at h
      rw [charsLt]
      by_cases h1 : c.toNat < d.toNat
      · rw [if_neg (by omega), if_pos h1]
      · rw [if_neg h1] at h
        by_cases h2 : d.toNat < c.toNat
        · rw [if_pos h2] at h
          exact absurd h (by simp)
        · rw [if_neg h2] at h
          rw [if_neg h2, if_neg h1]
          exact ih b h

theorem charsLt_trans (a b c : List Char) (h1 : charsLt a b = true)
    (h2 : charsLt b c = true) : charsLt a c = true := by
  induction a generalizing b c with
  | nil =>
    cases b with
    | nil => simp [charsLt] at h1
    | cons d b =>
      cases c with
      | nil => simp [charsLt] at h2
      | cons e c => rfl
  | cons x a ih =>
    cases b with
    | nil => simp [charsLt] at h1
    | cons d b =>
      cases c with
      | nil => simp [charsLt] at h2
      | cons e c =>
        rw [charsLt] at h1 h2
        rw [charsLt]
        by_cases hxd : x.toNat < d.toNat
        · by_cases hde : d.toNat < e.toNat
          · rw [if_pos (by omega)]
          · rw [if_neg hde] at h2
            by_cases hed : e.toNat < d.toNat
            · rw [if_pos hed] at h2
              exact absurd h2 (by simp)
            · rw [if_pos (by omega)]
        · rw [if_neg hxd] at h1
          by_cases hdx : d.toNat < x.toNat
          · rw [if_pos hdx] at h1
            exact absurd h1 (by simp)
          · rw [if_neg hdx] at h1
            by_cases hde : d.toNat < e.toNat
            · rw [if_pos (by omega)]
            · rw [if_neg hde] at h2
              by_cases hed : e.toNat < d.toNat
              · rw [if_pos hed] at h2
                exact absurd h2 (by simp)
              · rw [if_neg hed] at h2
                rw [if_neg (by omega), if_neg (by omega)]
                exact ih b c h1 h2

theorem charsLt_connex (a b : List Char) (hne : a ≠ b) (h : charsLt a b = false) :
    charsLt b a = true := by
  induction a generalizing b with
  | nil =>
    cases b with
    | nil => exact absurd rfl hne
    | cons d b => simp [charsLt] at h
  | cons c a ih =>
    cases b with
    | nil => rfl
    | cons d b =>
      rw [charsLt] at h
      rw [charsLt]
      by_cases h1 : c.toNat < d.toNat
      · rw [if_pos h1] at h
        exact absurd h (by simp)
      · rw [if_neg h1] at h
        by_cases h2 : d.toNat < c.toNat
        · rw [if_pos h2]
        · rw [if_neg h2] at h
          rw [if_neg h2, if_neg h1]
          have hcd : c = d := char_toNat_inj c d (by omega)
          subst hcd
          exact ih b (fun he => hne (by rw [he])) h

theorem string_data_inj (a b : String) (h : a.data = b.data) : a = b := by
  cases a
  cases b
  simp only at h
  rw [h]

theorem keyLt_irrefl (k : String) : keyLt k k = false := charsLt_irrefl k.data

theorem keyLt_asymm (a b : String) (h : keyLt a b = true) : keyLt b a = false :=
  charsLt_asymm a.data b.data h

theorem keyLt_trans (a b c : String) (h1 : keyLt a b = true) (h2 : keyLt b c = true) :
    keyLt a c = true :=
  charsLt_trans a.data b.data c.data h1 h2

theorem keyLt_connex (a b : String) (hne : a ≠ b) (h : keyLt a b = false) :
    keyLt b a = true :=
  charsLt_connex a.data b.data (fun hd => hne (string_data_inj a b hd)) h

theorem keyLtAll_insert (k0 k : String) (v : Json) (ms : List (String × Json))
    (h : keyLtAll k0 ms = true) (hk : keyLt k0 k = true) :
    keyLtAll k0 (insertMember ms k v) = true := by
  induction ms with
  | nil => simp [insertMember, keyLtAll, hk]
  | cons m ms ih =>
    obtain ⟨k', v'⟩ := m
    rw [keyLtAll] at h
    simp only [Bool.and_eq_true] at h
    rw [insertMember]
    by_cases h1 : k = k'
    · rw [if_pos h1]
      simp [keyLtAll, hk, h.2]
    · rw [if_neg h1]
      by_cases h2 : keyLt k k' = true
      · rw [if_pos h2]
        simp [keyLtAll, hk, h.1, h.2]
      · rw [if_neg h2]
        simp [keyLtAll, h.1, ih h.2]

theorem insertMember_sorted (ms : List (String × Json)) (k : String) (v : Json)
    (h : sortedKeys ms = true) : sortedKeys (insertMember ms k v) = true := by
  induction ms with
  | nil => simp [insertMember, sortedKeys, keyLtAll]
  | cons m ms ih =>
    obtain ⟨k', v'⟩ := m
    rw [sortedKeys] at h
    simp only [Bool.and_eq_true] at h
    rw [insertMember]
    by_cases h1 : k = k'
    · rw [if_pos h1]
      subst h1
      simp [sortedKeys, h.1, h.2]
    · rw [if_neg h1]
      by_cases h2 : keyLt k k' = true
      · rw [if_pos h2]
        have hall : keyLtAll k ms = true := by
          have hx := h.1
          clear ih h
          induction ms with
          | nil => rfl
          | cons m2 ms2 ih2 =>
            rw [keyLtAll] at hx
            simp only [Bool.and_eq_true] at hx
            rw [keyLtAll]
            simp [keyLt_trans k k' m2.1 h2 hx.1, ih2 hx.2]
        rw [sortedKeys]
        simp only [Bool.and_eq_true]
        refine ⟨?_, ?_⟩
        · rw [keyLtAll]
          simp [h2, hall]
        · rw [sortedKeys]
          simp [h.1, h.2]
      · rw [if_neg h2]
        have hk : keyLt k' k = true :=
          keyLt_connex k k' h1 (by simpa using h2)
        rw [sortedKeys]
        simp only [Bool.and_eq_true]
        exact ⟨keyLtAll_insert k' k v ms h.1 hk, ih h.2⟩

theorem insertMember_append (ms : List (String × Json)) (k : String) (v : Json)
    (h : ∀ m ∈ ms, keyLt m.1 k = true) :
    insertMember ms k v = ms ++ [(k, v)] := by
  induction ms with
  | nil => rfl
  | cons m ms ih =>
    obtain ⟨k', v'⟩ := m
    have hk : keyLt k' k = true := h (k', v') (by simp)
    rw [insertMember]
    rw [if_neg (fun he => by rw [he] at hk; rw [keyLt_irrefl] at hk; simp at hk)]
    rw [if_neg (fun hlt => by rw [keyLt_asymm k' k hk] at hlt; simp at hlt)]
    rw [ih (fun m hm => h m (by simp [hm]))]
    rfl

theorem sorted_append_elim (xs ys : List (String × Json))
    (h : sortedKeys (xs ++ ys) = true) :
    sortedKeys ys = true ∧ ∀ x ∈ xs, keyLtAll x.1 ys = true := by
  induction xs with
  | nil => exact ⟨h, by simp⟩
  | cons x xs ih =>
    rw [List.cons_append, sortedKeys] at h
    simp only [Bool.and_eq_true] at h
    have hx := ih h.2
    refine ⟨hx.1, ?_⟩
    intro m hm
    rcases List.mem_cons.mp hm with hm | hm
    · subst hm
      have := h.1
      clear ih h hx hm
      induction xs with
      | nil => simpa using this
      | cons y ys2 ih2 =>
        rw [List.cons_append, keyLtAll] at this
        simp only [Bool.and_eq_true] at this
        exact ih2 this.2
    · exact hx.2 m hm

theorem wfMembers_insert (ms : List (String × Json)) (k : String) (v : Json)
    (h : wfMembers ms = true) (hv : wfJ v = true) :
    wfMembers (insertMember ms k v) = true := by
  induction ms with
  | nil => simp [insertMember, wfMembers, hv]
  | cons m ms ih =>
    obtain ⟨k', v'⟩ := m
    rw [wfMembers] at h
    simp only [Bool.and_eq_true] at h
    rw [insertMember]
    by_cases h1 : k = k'
    · rw [if_pos h1]
      rw [wfMembers]
      simp [hv, h.2]
    · rw [if_neg h1]
      by_cases h2 : keyLt k k' = true
      · rw [if_pos h2]
        rw [wfMembers]
        simp only [Bool.and_eq_true]
        refine ⟨hv, ?_⟩
        rw [wfMembers]
        simp [h.1, h.2]
      · rw [if_neg h2]
        rw [wfMembers]
        simp [h.1, ih h.2]

theorem objSet_wf (ms : List (String × Json)) (k : String) (v : Json)
    (h : wfJ (.obj ms) = true) (hv : wfJ v = true) :
    wfJ (objSet (.obj ms) k v) = true := by
  rw [wfJ] at h
  simp only [Bool.and_eq_true] at h
  rw [objSet, wfJ]
  simp only [Bool.and_eq_true]
  exact ⟨insertMember_sorted ms k v h.1, wfMembers_insert ms k v h.2 hv⟩

theorem wfItems_snoc (a : List Json) (v : Json) :
    wfItems (a ++ [v]) = (wfItems a && wfJ v) := by
  induction a with
  | nil => simp [wfItems]
  | cons x a ih =>
    rw [List.cons_append, wfItems, ih, wfItems]
    simp [Bool.and_assoc]

theorem parse_wf_all : ∀ fuel : Nat,
    (∀ cs v r, parseVal fuel cs = some (v, r) → wfJ v = true) ∧
    (∀ cs acc v r, wfItems acc = true → parseArrItems fuel cs acc = some (v, r) →
      wfJ v = true) ∧
    (∀ cs acc v r, wfJ acc = true → parseObjItems fuel cs acc = some (v, r) →
      wfJ v = true) := by
  intro fuel
  induction fuel with
  | zero =>
    refine ⟨?_, ?_, ?_⟩
    · intro cs v r h
      exact absurd h (by simp [parseVal])
    · intro cs acc v r hacc h
      exact absurd h (by simp [parseArrItems])
    · intro cs acc v r hacc h
      exact absurd h (by simp [parseObjItems])
  | succ f ih =>
    obtain ⟨ih1, ih2, ih3⟩ := ih
    refine ⟨?_, ?_, ?_⟩
    · intro cs v r h
      rw [parseVal] at h
      repeat' split at h
      all_goals
        first
        | (simp only [Option.some.injEq, Prod.mk.injEq] at h
           rw [← h.1]
           rfl)
        | exact absurd h (by simp)
        | exact ih2 _ _ _ _ (by rfl) h
        | exact ih3 _ _ _ _ (by rfl) h
    · intro cs acc v r hacc h
      rw [parseArrItems] at h
      split at h
      · exact absurd h (by simp)
      · rename_i p v1 r1 hpv
        have hv1 : wfJ v1 = true := ih1 _ _ _ hpv
        split at h
        · exact ih2 _ _ _ _ (by rw [wfItems_snoc, hacc, hv1]; rfl) h
        · simp only [Option.some.injEq, Prod.mk.injEq] at h
          rw [← h.1, wfJ, wfItems_snoc, hacc, hv1]
          rfl
        · exact absurd h (by simp)
    · intro cs acc v r hacc h
      have hset : ∀ k v2, wfJ v2 = true → wfJ (objSet acc k v2) = true := by
        intro k v2 hv2
        cases acc with
        | obj ms => exact objSet_wf ms _ _ hacc hv2
        | null => simp [objSet, wfJ, sortedKeys, keyLtAll, wfMembers, hv2]
        | bool b => simp [objSet, wfJ, sortedKeys, keyLtAll, wfMembers, hv2]
        | num n => simp [objSet, wfJ, sortedKeys, keyLtAll, wfMembers, hv2]
        | str st => simp [objSet, wfJ, sortedKeys, keyLtAll, wfMembers, hv2]
        | arr es => simp [objSet, wfJ, sortedKeys, keyLtAll, wfMembers, hv2]
      rw [parseObjItems] at h
      repeat' split at h
      all_goals
        first
        | (simp only [Option.some.injEq, Prod.mk.injEq] at h
           rw [← h.1]
           exact hset _ _ (ih1 _ _ _ (by assumption)))
        | exact ih3 _ _ _ _ (hset _ _ (ih1 _ _ _ (by assumption))) h
        | exact absurd h (by simp)

theorem parseJson_wf (s : String) (v : Json) (h : parseJson s = some v) :
    wfJ v = true := by
  rw [parseJson] at h
  split at h
  · rename_i p v1 r1 hpv
    split at h
    · simp only [Option.some.injEq] at h
      rw [← h]
      exact (parse_wf_all (s.data.length + 1)).1 _ _ _ hpv
    · exact absurd h (by simp)
  · exact absurd h (by simp)

theorem parseVal_ws (fuel : Nat) (w cs : List Char) (hw : AllWs w) :
    parseVal fuel (w ++ cs) = parseVal fuel cs := by
  cases fuel with
  | zero => rfl
  | succ f =>
    rw [parseVal, parseVal, skipWs_append_ws w cs hw]

theorem parseVal_null (f : Nat) (rest : List Char) :
    parseVal (f + 1) ('n' :: 'u' :: 'l' :: 'l' :: rest) = some (.null, rest) := by
  simp [parseVal, skipWs, isWsChar]

theorem parseVal_true (f : Nat) (rest : List Char) :
    parseVal (f + 1) ('t' :: 'r' :: 'u' :: 'e' :: rest) = some (.bool true, rest) := by
  simp [parseVal, skipWs, isWsChar]

theorem parseVal_false (f : Nat) (rest : List Char) :
    parseVal (f + 1) ('f' :: 'a' :: 'l' :: 's' :: 'e' :: rest) = some (.bool false, rest) := by
  simp [parseVal, skipWs, isWsChar]

theorem parseVal_quote (f : Nat) (cs : List Char) :
    parseVal (f + 1) ('"' :: cs) =
      match parseStrBody cs with
      | some (sc, r) => some (.str ⟨sc⟩, r)
      | none => none := by
  simp [parseVal, skipWs, isWsChar]

theorem parseVal_digit (f : Nat) (c : Char) (cs : List Char) (hd : isDigitChar c = true) :
    parseVal (f + 1) (c :: cs) =
      some (.num (digitsVal (takeDigits (c :: cs)).1), (takeDigits (c :: cs)).2) := by
  obtain ⟨p1, p2, p3, p4, p5, p6, p7, p8, p9, p10, p11⟩ := digit_head_props c hd
  rw [parseVal, skipWs_cons_not_ws c cs p8]
  simp only []
  rw [if_neg p1, if_neg p2, if_neg p3, if_neg p4, if_neg p5, if_neg p6, if_neg p7,
    if_pos hd]

theorem parseVal_minus (f : Nat) (cs : List Char) :
    parseVal (f + 1) ('-' :: cs) =
      match takeDigits cs with
      | ([], _) => none
      | (ds, r) => some (.num (-(digitsVal ds : Int)), r) := by
  rw [parseVal, skipWs_cons_not_ws '-' cs (by decide)]
  simp only []
  rw [if_neg (by decide : ¬('-' : Char) = 'n'), if_neg (by decide : ¬('-' : Char) = 't'),
    if_neg (by decide : ¬('-' : Char) = 'f'), if_neg (by decide : ¬('-' : Char) = '"'),
    if_neg (by decide : ¬('-' : Char) = '['), if_neg (by decide : ¬('-' : Char) = '{')]
  simp only [ite_true]

theorem parseVal_lbrack (f : Nat) (cs : List Char) :
    parseVal (f + 1) ('[' :: cs) =
      match skipWs cs with
      | ']' :: r => some (.arr [], r)
      | _ => parseArrItems f cs [] := by
  rw [parseVal, skipWs_cons_not_ws '[' cs (by decide)]
  simp only []
  rw [if_neg (by decide : ¬('[' : Char) = 'n'), if_neg (by decide : ¬('[' : Char) = 't'),
    if_neg (by decide : ¬('[' : Char) = 'f'), if_neg (by decide : ¬('[' : Char) = '"')]
  simp only [ite_true]

theorem parseVal_lbrace (f : Nat) (cs : List Char) :
    parseVal (f + 1) ('{' :: cs) =
      match skipWs cs with
      | '}' :: r => some (.obj [], r)
      | _ => parseObjItems f cs (.obj []) := by
  rw [parseVal, skipWs_cons_not_ws '{' cs (by decide)]
  simp only []
  rw [if_neg (by decide : ¬('{' : Char) = 'n'), if_neg (by decide : ¬('{' : Char) = 't'),
    if_neg (by decide : ¬('{' : Char) = 'f'), if_neg (by decide : ¬('{' : Char) = '"'),
    if_neg (by decide : ¬('{' : Char) = '[')]
  simp only [ite_true]

theorem intChars_head (n : Int) :
    ∃ c t, intChars n = c :: t ∧ isWsChar c = false ∧ c ≠ ']' ∧ c ≠ '}' := by
  by_cases h : n < 0
  · exact ⟨'-', natChars n.natAbs, by rw [intChars, if_pos h], by decide, by decide, by decide⟩
  · rw [intChars, if_neg h]
    cases hc : natChars n.toNat with
    | nil => exact absurd hc (natChars_ne_nil n.toNat)
    | cons c t =>
      have hd : isDigitChar c = true := natChars_digits n.toNat c (by rw [hc]; simp)
      obtain ⟨p1, p2, p3, p4, p5, p6, p7, p8, p9, p10, p11⟩ := digit_head_props c hd
      exact ⟨c, t, rfl, p8, p9, p10⟩

theorem styledVal_head (lvl : Nat) (v : Json) :
    ∃ c t, styledVal lvl v = c :: t ∧ isWsChar c = false ∧ c ≠ ']' ∧ c ≠ '}' := by
  cases v with
  | null => exact ⟨'n', _, rfl, rfl, by decide, by decide⟩
  | bool b =>
    cases b with
    | true => refine ⟨'t', _, rfl, rfl, ?_, ?_⟩ <;> decide
    | false => refine ⟨'f', _, rfl, rfl, ?_, ?_⟩ <;> decide
  | num n =>
    obtain ⟨c, t, hct, h1, h2, h3⟩ := intChars_head n
    exact ⟨c, t, by rw [styledVal, hct], h1, h2, h3⟩
  | str s => refine ⟨'"', _, rfl, rfl, ?_, ?_⟩ <;> decide
  | arr es =>
    cases es with
    | nil => exact ⟨'[', _, rfl, rfl, by decide, by decide⟩
    | cons e es =>
      rw [styledVal]
      by_cases hml : isMultilineArr (e :: es) = true
      · rw [if_pos hml]
        refine ⟨'[', _, rfl, rfl, ?_, ?_⟩ <;> decide
      · rw [if_neg hml]
        refine ⟨'[', _, rfl, rfl, ?_, ?_⟩ <;> decide
  | obj ms =>
    cases ms with
    | nil => exact ⟨'{', _, rfl, rfl, by decide, by decide⟩
    | cons m ms =>
      refine ⟨'{', styledMembers (lvl + 1) (m :: ms) ++ '\n' :: indentChars lvl ++ ['}'], ?_,
        by decide, by decide, by decide⟩
      rw [styledVal]
      simp

theorem sizeJ_pos (v : Json) : 1 ≤ sizeJ v := by
  cases v <;> simp [sizeJ]

theorem sizeJ_mem_items (v : Json) (es : List Json) (h : v ∈ es) :
    sizeJ v ≤ sizeItems es := by
  induction es with
  | nil => simp at h
  | cons e es ih =>
    rw [sizeItems]
    rcases List.mem_cons.mp h with h | h
    · subst h; omega
    · have := ih h; omega

theorem sizeJ_mem_members (k : String) (v : Json) (ms : List (String × Json))
    (h : (k, v) ∈ ms) : sizeJ v ≤ sizeMembers ms := by
  induction ms with
  | nil => simp at h
  | cons m ms ih =>
    obtain ⟨k', v'⟩ := m
    rw [sizeMembers]
    rcases List.mem_cons.mp h with h | h
    · rw [Prod.mk.injEq] at h
      rw [← h.2]; omega
    · have := ih h; omega

theorem wfItems_mem (v : Json) (es : List Json) (hm : v ∈ es)
    (h : wfItems es = true) : wfJ v = true := by
  induction es with
  | nil => simp at hm
  | cons e es ih =>
    rw [wfItems] at h
    simp only [Bool.and_eq_true] at h
    rcases List.mem_cons.mp hm with hx | hx
    · rw [hx]; exact h.1
    · exact ih hx h.2

theorem wfMembers_mem (k : String) (v : Json) (ms : List (String × Json))
    (hm : (k, v) ∈ ms) (h : wfMembers ms = true) : wfJ v = true := by
  induction ms with
  | nil => simp at hm
  | cons m ms ih =>
    obtain ⟨k', v'⟩ := m
    rw [wfMembers] at h
    simp only [Bool.and_eq_true] at h
    rcases List.mem_cons.mp hm with hx | hx
    · rw [Prod.mk.injEq] at hx
      rw [hx.2]; exact h.1
    · exact ih hx h.2

theorem noDigitHead_cons (c : Char) (X : List Char) (h : isDigitChar c = false) :
    noDigitHead (c :: X) := by
  intro c' t hEq
  injection hEq with h1 h2
  rw [← h1]
  exact h

theorem allWs_cons (c : Char) (w : List Char) (hc : isWsChar c = true) (hw : AllWs w) :
    AllWs (c :: w) := by
  intro x hx
  rcases List.mem_cons.mp hx with hx | hx
  · rw [hx]; exact hc
  · exact hw x hx

theorem skipWs_ws_cons (w : List Char) (c : Char) (cs : List Char)
    (hw : AllWs w) (hc : isWsChar c = false) : skipWs (w ++ c :: cs) = c :: cs := by
  rw [skipWs_append_ws w _ hw, skipWs_cons_not_ws c cs hc]

theorem parseVal_ws_cons (fuel : Nat) (c : Char) (w cs : List Char)
    (hc : isWsChar c = true) (hw : AllWs w) :
    parseVal fuel (c :: (w ++ cs)) = parseVal fuel cs := by
  have h := parseVal_ws fuel (c :: w) cs (allWs_cons c w hc hw)
  simpa using h

theorem skipWs_cons_ws (c : Char) (w : List Char) (d : Char) (cs : List Char)
    (hc : isWsChar c = true) (hw : AllWs w) (hd : isWsChar d = false) :
    skipWs (c :: (w ++ d :: cs)) = d :: cs := by
  have h := skipWs_ws_cons (c :: w) d cs (allWs_cons c w hc hw) hd
  simpa using h

theorem parseArrItems_ML (lvl lvl' : Nat) (es : List Json) (hne : es ≠ [])
    (hitems : ∀ e ∈ es, ∀ lvl2 fuel2 rest2, (styledVal lvl2 e).length < fuel2 →
      noDigitHead rest2 → parseVal fuel2 (styledVal lvl2 e ++ rest2) = some (e, rest2)) :
    ∀ fuel acc rest, (styledItemsML lvl es).length < fuel →
    parseArrItems fuel (styledItemsML lvl es ++ '\n' :: indentChars lvl' ++ ']' :: rest) acc =
      some (.arr (acc ++ es), rest) := by
  induction es with
  | nil => exact absurd rfl hne
  | cons e es ih =>
    intro fuel acc rest hfuel
    cases es with
    | nil =>
      rw [styledItemsML] at hfuel ⊢
      simp only [List.length_cons, List.length_append] at hfuel
      cases fuel with
      | zero => omega
      | succ f =>
        rw [parseArrItems]
        simp only [List.cons_append, List.append_assoc]
        rw [parseVal_ws_cons f '\n' (indentChars lvl) _ (by decide) (allWs_indent lvl)]
        rw [hitems e (by simp) lvl f _ (by omega)
          (noDigitHead_cons '\n' _ (by decide))]
        simp only []
        rw [skipWs_cons_ws '\n' (indentChars lvl') ']' rest (by decide)
          (allWs_indent lvl') (by decide)]
        rfl
    | cons e2 es2 =>
      simp only [styledItemsML] at hfuel ⊢
      simp only [List.length_cons, List.length_append] at hfuel
      cases fuel with
      | zero => omega
      | succ f =>
        rw [parseArrItems]
        simp only [List.cons_append, List.append_assoc]
        rw [parseVal_ws_cons f '\n' (indentChars lvl) _ (by decide) (allWs_indent lvl)]
        rw [hitems e (by simp) lvl f _ (by omega)
          (noDigitHead_cons ',' _ (by decide))]
        simp only []
        rw [skipWs_cons_not_ws ',' _ (by decide)]
        simp only []
        have hpos : 1 ≤ (styledItemsML lvl (e2 :: es2)).length := by
          cases es2 <;> simp [styledItemsML]
        have happ := ih (List.cons_ne_nil e2 es2)
          (fun x hx => hitems x (List.mem_cons_of_mem e hx)) f (acc ++ [e]) rest (by omega)
        simp only [List.cons_append, List.append_assoc] at happ
        rw [happ]
        simp

theorem parseVal_ws_one (fuel : Nat) (c : Char) (cs : List Char) (hc : isWsChar c = true) :
    parseVal fuel (c :: cs) = parseVal fuel cs := by
  cases fuel with
  | zero => rfl
  | succ f => rw [parseVal, parseVal, skipWs, if_pos hc]

theorem keyLtAll_head (k0 k : String) (v : Json) (ms : List (String × Json))
    (h : keyLtAll k0 ((k, v) :: ms) = true) : keyLt k0 k = true := by
  rw [keyLtAll] at h
  simp only [Bool.and_eq_true] at h
  exact h.1

theorem skipWs_sp_colon (X : List Char) : skipWs (' ' :: ':' :: X) = ':' :: X := by
  simp [skipWs, isWsChar]

theorem parseArrItems_SL (es : List Json) (hne : es ≠ [])
    (hitems : ∀ e ∈ es, ∀ lvl2 fuel2 rest2, (styledVal lvl2 e).length < fuel2 →
      noDigitHead rest2 → parseVal fuel2 (styledVal lvl2 e ++ rest2) = some (e, rest2)) :
    ∀ fuel acc rest w, AllWs w → w.length + (styledItemsSL es).length + 2 ≤ fuel →
    parseArrItems fuel (w ++ styledItemsSL es ++ ' ' :: ']' :: rest) acc =
      some (.arr (acc ++ es), rest) := by
  induction es with
  | nil => exact absurd rfl hne
  | cons e es ih =>
    intro fuel acc rest w hw hfuel
    cases es with
    | nil =>
      rw [styledItemsSL] at hfuel ⊢
      cases fuel with
      | zero => omega
      | succ f =>
        rw [parseArrItems]
        simp only [List.cons_append, List.append_assoc]
        rw [parseVal_ws f w _ hw]
        rw [hitems e (by simp) 0 f _ (by omega) (noDigitHead_cons ' ' _ (by decide))]
        simp only []
        rw [show skipWs (' ' :: ']' :: rest) = ']' :: rest from by simp [skipWs, isWsChar]]
        rfl
    | cons e2 es2 =>
      simp only [styledItemsSL] at hfuel ⊢
      simp only [List.length_cons, List.length_append] at hfuel
      cases fuel with
      | zero => omega
      | succ f =>
        rw [parseArrItems]
        simp only [List.cons_append, List.append_assoc]
        rw [parseVal_ws f w _ hw]
        rw [hitems e (by simp) 0 f _ (by omega) (noDigitHead_cons ',' _ (by decide))]
        simp only []
        rw [skipWs_cons_not_ws ',' _ (by decide)]
        simp only []
        have happ := ih (List.cons_ne_nil e2 es2)
          (fun x hx => hitems x (List.mem_cons_of_mem e hx)) f (acc ++ [e]) rest [' ']
          (by intro x hx; simp at hx; rw [hx]; rfl) (by simp; omega)
        simp only [List.cons_append, List.append_assoc, List.nil_append] at happ
        rw [happ]

theorem parseObjItems_mem (lvl lvl' : Nat) (ms : List (String × Json)) (hne : ms ≠ [])
    (hitems : ∀ k2 v2, (k2, v2) ∈ ms → ∀ lvl2 fuel2 rest2,
      (styledVal lvl2 v2).length < fuel2 → noDigitHead rest2 →
      parseVal fuel2 (styledVal lvl2 v2 ++ rest2) = some (v2, rest2)) :
    ∀ fuel acc rest, (styledMembers lvl ms).length < fuel →
    sortedKeys (acc ++ ms) = true →
    parseObjItems fuel (styledMembers lvl ms ++ '\n' :: indentChars lvl' ++ '}' :: rest)
      (.obj acc) = some (.obj (acc ++ ms), rest) := by
  induction ms generalizing lvl with
  | nil => exact absurd rfl hne
  | cons m ms ih =>
    obtain ⟨k, v⟩ := m
    intro fuel acc rest hfuel hsorted
    have hcross := sorted_append_elim acc ((k, v) :: ms) hsorted
    have hins : insertMember acc k v = acc ++ [(k, v)] :=
      insertMember_append acc k v
        (fun m2 hm2 => keyLtAll_head m2.1 k v ms (hcross.2 m2 hm2))
    cases ms with
    | nil =>
      rw [styledMembers] at hfuel ⊢
      simp only [List.length_cons, List.length_append] at hfuel
      cases fuel with
      | zero => omega
      | succ f =>
        rw [parseObjItems]
        simp only [quoteStr, escStr, List.cons_append, List.append_assoc]
        rw [skipWs_cons_ws '\n' (indentChars lvl) '"' _ (by decide)
          (allWs_indent lvl) (by decide)]
        simp only []
        rw [parseStrBody_esc k.data]
        simp only []
        simp only [List.nil_append]
        rw [skipWs_sp_colon]
        simp only []
        rw [parseVal_ws_one f ' ' _ (by decide)]
        rw [hitems k v (by simp) lvl f _ (by omega)
          (noDigitHead_cons '\n' _ (by decide))]
        simp only []
        rw [show (⟨k.data⟩ : String) = k from rfl]
        rw [show objSet (Json.obj acc) k v = Json.obj (insertMember acc k v) from rfl, hins]
        rw [skipWs_cons_ws '\n' (indentChars lvl') '}' rest (by decide)
          (allWs_indent lvl') (by decide)]
        rfl
    | cons m2 ms2 =>
      simp only [styledMembers] at hfuel ⊢
      simp only [List.length_cons, List.length_append] at hfuel
      cases fuel with
      | zero => omega
      | succ f =>
        rw [parseObjItems]
        simp only [quoteStr, escStr, List.cons_append, List.append_assoc]
        rw [skipWs_cons_ws '\n' (indentChars lvl) '"' _ (by decide)
          (allWs_indent lvl) (by decide)]
        simp only []
        rw [parseStrBody_esc k.data]
        simp only []
        simp only [List.nil_append]
        rw [skipWs_sp_colon]
        simp only []
        rw [parseVal_ws_one f ' ' _ (by decide)]
        rw [hitems k v (by simp) lvl f _ (by omega)
          (noDigitHead_cons ',' _ (by decide))]
        simp only []
        rw [show (⟨k.data⟩ : String) = k from rfl]
        rw [show objSet (Json.obj acc) k v = Json.obj (insertMember acc k v) from rfl, hins]
        rw [skipWs_cons_not_ws ',' _ (by decide)]
        simp only []
        have happ := ih lvl (List.cons_ne_nil m2 ms2)
          (fun k2 v2 hx => hitems k2 v2 (List.mem_cons_of_mem (k, v) hx)) f
          (acc ++ [(k, v)]) rest (by omega)
          (by rw [List.append_assoc]; simpa using hsorted)
        simp only [List.cons_append, List.append_assoc] at happ
        rw [happ]
        simp

theorem styledItemsML_shape (lvl : Nat) (e : Json) (es : List Json) :
    ∃ T, styledItemsML lvl (e :: es) =
      '\n' :: indentChars lvl ++ styledVal lvl e ++ T := by
  cases es with
  | nil => exact ⟨[], by simp [styledItemsML]⟩
  | cons e2 es2 => exact ⟨',' :: styledItemsML lvl (e2 :: es2), by simp [styledItemsML]⟩

theorem styledItemsSL_shape (e : Json) (es : List Json) :
    ∃ T, styledItemsSL (e :: es) = styledVal 0 e ++ T := by
  cases es with
  | nil => exact ⟨[], by simp [styledItemsSL]⟩
  | cons e2 es2 => exact ⟨',' :: ' ' :: styledItemsSL (e2 :: es2), by simp [styledItemsSL]⟩

theorem styledMembers_shape (lvl : Nat) (k : String) (v : Json)
    (ms : List (String × Json)) :
    ∃ T, styledMembers lvl ((k, v) :: ms) =
      '\n' :: indentChars lvl ++ quoteStr k ++ ' ' :: ':' :: ' ' :: styledVal lvl v ++ T := by
  cases ms with
  | nil => exact ⟨[], by simp [styledMembers]⟩
  | cons m2 ms2 => exact ⟨',' :: styledMembers lvl (m2 :: ms2), by simp [styledMembers]⟩

theorem styled_parse_null (lvl fuel : Nat) (rest : List Char)
    (hfuel : (styledVal lvl Json.null).length < fuel) :
    parseVal fuel (styledVal lvl Json.null ++ rest) = some (.null, rest) := by
  cases fuel with
  | zero => simp [styledVal] at hfuel
  | succ f => exact parseVal_null f rest

theorem styled_parse_bool (lvl fuel : Nat) (b : Bool) (rest : List Char)
    (hfuel : (styledVal lvl (Json.bool b)).length < fuel) :
    parseVal fuel (styledVal lvl (Json.bool b) ++ rest) = some (.bool b, rest) := by
  cases b with
  | true =>
    cases fuel with
    | zero => simp [styledVal] at hfuel
    | succ f => exact parseVal_true f rest
  | false =>
    cases fuel with
    | zero => simp [styledVal] at hfuel
    | succ f => exact parseVal_false f rest

theorem styled_parse_num (lvl fuel : Nat) (n : Int) (rest : List Char)
    (hfuel : (styledVal lvl (Json.num n)).length < fuel) (hrest : noDigitHead rest) :
    parseVal fuel (styledVal lvl (Json.num n) ++ rest) = some (.num n, rest) := by
  rw [show styledVal lvl (Json.num n) = intChars n from rfl] at hfuel ⊢
  by_cases hneg : n < 0
  · rw [intChars, if_pos hneg] at hfuel ⊢
    cases fuel with
    | zero => simp at hfuel
    | succ f =>
      rw [List.cons_append, parseVal_minus]
      rw [takeDigits_exact (natChars n.natAbs) rest (natChars_digits _) hrest]
      cases hc : natChars n.natAbs with
      | nil => exact absurd hc (natChars_ne_nil _)
      | cons c t =>
        simp only []
        rw [← hc, digitsVal_natChars]
        have : -(n.natAbs : Int) = n := by omega
        rw [this]
  · rw [intChars, if_neg hneg] at hfuel ⊢
    cases hc : natChars n.toNat with
    | nil => exact absurd hc (natChars_ne_nil _)
    | cons c t =>
      have hd : isDigitChar c = true := natChars_digits n.toNat c (by rw [hc]; simp)
      rw [hc] at hfuel
      cases fuel with
      | zero => simp at hfuel
      | succ f =>
        rw [List.cons_append, parseVal_digit f c _ hd, ← List.cons_append, ← hc,
          takeDigits_exact (natChars n.toNat) rest (natChars_digits _) hrest]
        simp only [digitsVal_natChars]
        have : (n.toNat : Int) = n := by omega
        rw [this]

theorem styled_parse_str (lvl fuel : Nat) (s : String) (rest : List Char)
    (hfuel : (styledVal lvl (Json.str s)).length < fuel) :
    parseVal fuel (styledVal lvl (Json.str s) ++ rest) = some (.str s, rest) := by
  rw [show styledVal lvl (Json.str s) = quoteStr s from rfl] at hfuel ⊢
  cases fuel with
  | zero => simp [quoteStr] at hfuel
  | succ f =>
    rw [quoteStr]
    simp only [List.cons_append, List.append_assoc]
    rw [parseVal_quote]
    simp only [escStr, List.append_assoc, List.cons_append, List.nil_append]
    rw [parseStrBody_esc s.data rest]

theorem styled_parse_arr_nil (lvl fuel : Nat) (rest : List Char)
    (hfuel : (styledVal lvl (Json.arr [])).length < fuel) :
    parseVal fuel (styledVal lvl (Json.arr []) ++ rest) = some (.arr [], rest) := by
  cases fuel with
  | zero => simp [styledVal] at hfuel
  | succ f =>
    rw [show styledVal lvl (Json.arr []) = ['[', ']'] from rfl]
    simp only [List.cons_append, List.nil_append]
    rw [parseVal_lbrack]
    rw [skipWs_cons_not_ws ']' rest (by decide)]
    rfl

theorem styled_parse_obj_nil (lvl fuel : Nat) (rest : List Char)
    (hfuel : (styledVal lvl (Json.obj [])).length < fuel) :
    parseVal fuel (styledVal lvl (Json.obj []) ++ rest) = some (.obj [], rest) := by
  cases fuel with
  | zero => simp [styledVal] at hfuel
  | succ f =>
    rw [show styledVal lvl (Json.obj []) = ['{', '}'] from rfl]
    simp only [List.cons_append, List.nil_append]
    rw [parseVal_lbrace]
    rw [skipWs_cons_not_ws '}' rest (by decide)]
    rfl

theorem styled_parse_arr_cons (lvl fuel : Nat) (e : Json) (es : List Json) (rest : List Char)
    (hitems : ∀ x ∈ e :: es, ∀ lvl2 fuel2 rest2, (styledVal lvl2 x).length < fuel2 →
      noDigitHead rest2 → parseVal fuel2 (styledVal lvl2 x ++ rest2) = some (x, rest2))
    (hfuel : (styledVal lvl (Json.arr (e :: es))).length < fuel) :
    parseVal fuel (styledVal lvl (Json.arr (e :: es)) ++ rest) =
      some (.arr (e :: es), rest) := by
  rw [styledVal] at hfuel ⊢
  by_cases hml : isMultilineArr (e :: es) = true
  · rw [if_pos hml] at hfuel ⊢
    simp only [List.length_cons, List.length_append, List.cons_append,
      List.append_assoc, List.nil_append] at hfuel ⊢
    cases fuel with
    | zero => omega
    | succ f =>
      rw [parseVal_lbrack]
      obtain ⟨T, hT⟩ := styledItemsML_shape (lvl + 1) e es
      obtain ⟨c, t, hct, hnws, hnrb, hnrc⟩ := styledVal_head (lvl + 1) e
      rw [show styledItemsML (lvl + 1) (e :: es) ++ '\n' :: (indentChars lvl ++ ']' :: rest) =
          '\n' :: (indentChars (lvl + 1) ++
            (c :: (t ++ (T ++ '\n' :: (indentChars lvl ++ ']' :: rest))))) from by
        rw [hT, hct]; simp]
      rw [skipWs_cons_ws '\n' _ c _ (by decide) (allWs_indent (lvl + 1)) hnws]
      split
      · rename_i r hr
        injection hr with hr1 hr2
        exact absurd hr1 hnrb
      · have happ := parseArrItems_ML (lvl + 1) lvl (e :: es) (List.cons_ne_nil e es)
          hitems f [] rest (by rw [hT, hct] at hfuel ⊢; simp at hfuel ⊢; omega)
        simp only [List.cons_append, List.append_assoc, List.nil_append] at happ
        rw [show '\n' :: (indentChars (lvl + 1) ++
            (c :: (t ++ (T ++ '\n' :: (indentChars lvl ++ ']' :: rest))))) =
          styledItemsML (lvl + 1) (e :: es) ++ '\n' :: (indentChars lvl ++ ']' :: rest) from by
          rw [hT, hct]; simp]
        rw [happ]
  · rw [if_neg hml] at hfuel ⊢
    simp only [List.length_cons, List.length_append, List.cons_append,
      List.append_assoc, List.nil_append] at hfuel ⊢
    cases fuel with
    | zero => omega
    | succ f =>
      rw [parseVal_lbrack]
      obtain ⟨T, hT⟩ := styledItemsSL_shape e es
      obtain ⟨c, t, hct, hnws, hnrb, hnrc⟩ := styledVal_head 0 e
      rw [show ' ' :: (styledItemsSL (e :: es) ++ ' ' :: ']' :: rest) =
          ' ' :: ([] ++ (c :: (t ++ (T ++ ' ' :: ']' :: rest)))) from by
        rw [hT, hct]; simp]
      rw [skipWs_cons_ws ' ' [] c _ (by decide) (by intro x hx; simp at hx) hnws]
      split
      · rename_i r hr
        injection hr with hr1 hr2
        exact absurd hr1 hnrb
      · have happ := parseArrItems_SL (e :: es) (List.cons_ne_nil e es)
          hitems f [] rest [' ']
          (by intro x hx; simp at hx; rw [hx]; rfl)
          (by rw [hT, hct] at hfuel ⊢; simp at hfuel ⊢; omega)
        simp only [List.cons_append, List.append_assoc, List.nil_append] at happ
        rw [show ' ' :: ([] ++ (c :: (t ++ (T ++ ' ' :: ']' :: rest)))) =
          ' ' :: (styledItemsSL (e :: es) ++ ' ' :: ']' :: rest) from by
          rw [hT, hct]; simp]
        rw [happ]

theorem styled_parse_obj_cons (lvl fuel : Nat) (k : String) (v : Json)
    (ms : List (String × Json)) (rest : List Char)
    (hitems : ∀ k2 v2, (k2, v2) ∈ (k, v) :: ms → ∀ lvl2 fuel2 rest2,
      (styledVal lvl2 v2).length < fuel2 → noDigitHead rest2 →
      parseVal fuel2 (styledVal lvl2 v2 ++ rest2) = some (v2, rest2))
    (hsorted : sortedKeys ((k, v) :: ms) = true)
    (hfuel : (styledVal lvl (Json.obj ((k, v) :: ms))).length < fuel) :
    parseVal fuel (styledVal lvl (Json.obj ((k, v) :: ms)) ++ rest) =
      some (.obj ((k, v) :: ms), rest) := by
  rw [styledVal] at hfuel ⊢
  simp only [List.length_cons, List.length_append, List.cons_append,
    List.append_assoc, List.nil_append] at hfuel ⊢
  cases fuel with
  | zero => omega
  | succ f =>
    rw [parseVal_lbrace]
    obtain ⟨T, hT⟩ := styledMembers_shape (lvl + 1) k v ms
    rw [show styledMembers (lvl + 1) ((k, v) :: ms) ++ '\n' :: (indentChars lvl ++ '}' :: rest) =
        '\n' :: (indentChars (lvl + 1) ++
          ('"' :: (escStr k ++ ('"' :: (' ' :: (':' :: (' ' :: (styledVal (lvl + 1) v ++
            (T ++ '\n' :: (indentChars lvl ++ '}' :: rest)))))))))) from by
      rw [hT]; simp [quoteStr]]
    rw [skipWs_cons_ws '\n' _ '"' _ (by decide) (allWs_indent (lvl + 1)) (by decide)]
    split
    · rename_i r hr
      injection hr with hr1 hr2
      exact absurd hr1 (by decide)
    · have happ := parseObjItems_mem (lvl + 1) lvl ((k, v) :: ms)
        (List.cons_ne_nil (k, v) ms) hitems f [] rest
        (by rw [hT] at hfuel ⊢; simp [quoteStr] at hfuel ⊢; omega)
        (by simpa using hsorted)
      simp only [List.cons_append, List.append_assoc, List.nil_append] at happ
      rw [show '\n' :: (indentChars (lvl + 1) ++
          ('"' :: (escStr k ++ ('"' :: (' ' :: (':' :: (' ' :: (styledVal (lvl + 1) v ++
            (T ++ '\n' :: (indentChars lvl ++ '}' :: rest)))))))))) =
        styledMembers (lvl + 1) ((k, v) :: ms) ++ '\n' :: (indentChars lvl ++ '}' :: rest)
        from by rw [hT]; simp [quoteStr]]
      rw [happ]

theorem styled_parse_main : ∀ N v, sizeJ v ≤ N → wfJ v = true →
    ∀ lvl fuel rest, (styledVal lvl v).length < fuel → noDigitHead rest →
    parseVal fuel (styledVal lvl v ++ rest) = some (v, rest) := by
  intro N
  induction N with
  | zero =>
    intro v hs
    have := sizeJ_pos v
    omega
  | succ n ihN =>
    intro v hs hwf lvl fuel rest hfuel hrest
    cases v with
    | null => exact styled_parse_null lvl fuel rest hfuel
    | bool b => exact styled_parse_bool lvl fuel b rest hfuel
    | num m => exact styled_parse_num lvl fuel m rest hfuel hrest
    | str s => exact styled_parse_str lvl fuel s rest hfuel
    | arr es =>
      cases es with
      | nil => exact styled_parse_arr_nil lvl fuel rest hfuel
      | cons e es =>
        have hwf2 : wfItems (e :: es) = true := by rw [wfJ] at hwf; exact hwf
        refine styled_parse_arr_cons lvl fuel e es rest ?_ hfuel
        intro x hx lvl2 fuel2 rest2 hf2 hr2
        refine ihN x ?_ (wfItems_mem x _ hx hwf2) lvl2 fuel2 rest2 hf2 hr2
        have h1 := sizeJ_mem_items x _ hx
        have h2 : sizeJ (Json.arr (e :: es)) = 1 + sizeItems (e :: es) := rfl
        omega
    | obj ms =>
      cases ms with
      | nil => exact styled_parse_obj_nil lvl fuel rest hfuel
      | cons m ms =>
        obtain ⟨k, v2⟩ := m
        have hwf2 : sortedKeys ((k, v2) :: ms) = true ∧ wfMembers ((k, v2) :: ms) = true := by
          rw [wfJ] at hwf
          simpa [Bool.and_eq_true] using hwf
        refine styled_parse_obj_cons lvl fuel k v2 ms rest ?_ hwf2.1 hfuel
        intro k2 x hx lvl2 fuel2 rest2 hf2 hr2
        refine ihN x ?_ (wfMembers_mem k2 x _ hx hwf2.2) lvl2 fuel2 rest2 hf2 hr2
        have h1 := sizeJ_mem_members k2 x _ hx
        have h2 : sizeJ (Json.obj ((k, v2) :: ms)) = 1 + sizeMembers ((k, v2) :: ms) := rfl
        omega

theorem parse_toStyled (v : Json) (h : wfJ v = true) :
    parseJson (toStyledString v) = some v := by
  rw [parseJson, toStyledString]
  have hp := styled_parse_main (sizeJ v) v (le_refl _) h 0
    ((String.mk (styledVal 0 v ++ ['\n'])).data.length + 1) ['\n']
    (by
      rw [show (String.mk (styledVal 0 v ++ ['\n'])).data = styledVal 0 v ++ ['\n'] from rfl]
      simp
      omega)
    (noDigitHead_cons '\n' [] (by decide))
  rw [show (String.mk (styledVal 0 v ++ ['\n'])).data = styledVal 0 v ++ ['\n'] from rfl] at hp ⊢
  rw [hp]
  simp [skipWs, isWsChar]

/-- C6: a payload delivered to the message pump that fails to parse as JSON
produces exactly one diagnostic emission (carrying the raw payload and a
parse-error notice), does not change the session state (in particular does
not enter a Failed stage), and is followed by another read issuance: the
loop continues, and only a transport-level read error ends it. -/
theorem pump_parse_error_continues (s : Session) (rs : List (Except String String))
    (p : String) (hb : s.buffer = "") (hp : parseJson p = none) :
    (readLoop s (.ok p :: rs)).2 =
      .op (.readOp 0) :: .err ("Failed to parse JSON: " ++ p ++ "\n") ::
        (readLoop { s with buffer := "" } rs).2 ∧
    (readLoop s (.ok p :: rs)).1 = (readLoop { s with buffer := "" } rs).1 ∧
    (∃ t, (readLoop { s with buffer := "" } rs).2 = .op (.readOp 0) :: t) := by
  have hq : s.buffer ++ p = p := by rw [hb]; simp
  refine ⟨?_, ?_, ?_⟩
  · simp [readLoop, hq, hp, hb]
  · simp [readLoop, hq, hp]
  · simpa using readLoop_evs_head { s with buffer := "" } rs

/-- Witness for C6 at a concrete malformed payload. -/
theorem pump_parse_error_continues_witness :
    (readLoop ⟨"h", "i", "", .Streaming⟩ [.ok "oops"]).2 =
      .op (.readOp 0) :: .err ("Failed to parse JSON: " ++ "oops" ++ "\n") ::
        (readLoop ⟨"h", "i", "", .Streaming⟩ []).2 :=
  (pump_parse_error_continues ⟨"h", "i", "", .Streaming⟩ [] "oops" rfl rfl).1

/-- C1: for every instrument string, the subscription request built by
`subscribe_to_orderbook` carries jsonrpc version 2.0, request identifier 1,
method public/subscribe, and exactly one channel, whose value is
`book.` ++ instrument ++ `.100ms`. -/
theorem subscription_request_fields (instrument : String) :
    objGet (subscriptionValue instrument) "jsonrpc" = Json.str "2.0" ∧
    objGet (subscriptionValue instrument) "id" = Json.num 1 ∧
    objGet (subscriptionValue instrument) "method" = Json.str "public/subscribe" ∧
    objGet (objGet (subscriptionValue instrument) "params") "channels" =
      Json.arr [Json.str ("book." ++ instrument ++ ".100ms")] :=
  ⟨rfl, rfl, rfl, rfl⟩

/-- C2 counterexample: for instrument BTC-PERPETUAL the serialized subscribe
frame is not the claimed byte string (the claim lists the members in
insertion order and omits the newline `FastWriter::write` appends, while the
member map of jsoncpp serializes in sorted key order). -/
theorem subscribe_frame_claimed_bytes_refuted :
    subscribeFrame "BTC-PERPETUAL" ≠
      "\x7b\"jsonrpc\":\"2.0\",\"id\":1,\"method\":\"public/subscribe\",\"params\":\x7b\"channels\":[\"book.BTC-PERPETUAL.100ms\"]\x7d\x7d" := by
  decide

/-- C2 amended: for instrument BTC-PERPETUAL the serialized subscribe frame
is the compact serialization of the same object with the members in sorted
key order and a terminating newline. -/
theorem subscribe_frame_exact_bytes :
    subscribeFrame "BTC-PERPETUAL" =
      "\x7b\"id\":1,\"jsonrpc\":\"2.0\",\"method\":\"public/subscribe\",\"params\":\x7b\"channels\":[\"book.BTC-PERPETUAL.100ms\"]\x7d\x7d\n" := by
  rfl

/-- C3: in every execution, the streaming stage is reached only through the
six earlier lifecycle stages in their strict order, and no stage is ever
entered twice. -/
theorem lifecycle_stages_in_order (i : String) (env : Env) :
    (stagesOf (clientTrace i env)).Nodup ∧
    (Stage.Streaming ∈ stagesOf (clientTrace i env) →
      (stagesOf (clientTrace i env)).take 7 = fullStages) := by
  rcases stages_shape i env with h | h | h | h | h | h | h <;> rw [h] <;>
    exact ⟨by decide, by decide⟩

/-- Witness for C3 on a fully successful setup. -/
theorem lifecycle_stages_in_order_witness :
    (stagesOf (clientTrace "BTC-PERPETUAL" ⟨.ok (), .ok 443, .ok (), .ok (), .ok (), []⟩)).take 7 =
      fullStages :=
  (lifecycle_stages_in_order "BTC-PERPETUAL" ⟨.ok (), .ok 443, .ok (), .ok (), .ok (), []⟩).2
    (by decide)

/-- C4: the Failed state is absorbing — once a stage's completion handler
enters it, the trace ends: no further stage entry, network operation, or
emission of any kind follows. -/
theorem failed_stage_absorbing (i : String) (env : Env) :
    ∀ l1 w l2, clientTrace i env = l1 ++ .enter (.Failed w) :: l2 → l2 = [] := by
  intro l1 w l2 h
  by_contra h2
  exact (nfbl_clientTrace i env).2 w (mem_dropLast_of_eq_append_cons h h2)

/-- Witness for C4 at a failing resolve stage. -/
theorem failed_stage_absorbing_witness : ([] : List TrEv) = [] :=
  failed_stage_absorbing "X" ⟨.error "boom", .ok 443, .ok (), .ok (), .ok (), []⟩
    [.enter .Init, .enter .Resolving, .op (.resolveOp "www.deribit.com" "443"),
     .err "resolve: boom\n"]
    "resolve" [] (by decide)

/-- C5: the subscription frame is written exactly once when the WebSocket
protocol handshake completes successfully and never otherwise, and every
frame write carries exactly the serialized subscription request. -/
theorem subscribe_write_once_iff_handshake (i : String) (env : Env) :
    (clientTrace i env).countP isWriteEv = (if setupOk env then 1 else 0) ∧
    ∀ f, TrEv.op (.writeOp f) ∈ clientTrace i env → f = subscribeFrame i :=
  ⟨writes_clientTrace i env, fun f h => frame_clientTrace i env f h⟩

/-- Witness for C5: on a successful setup the written frame is the
subscription frame. -/
theorem subscribe_write_once_iff_handshake_witness :
    subscribeFrame "BTC-PERPETUAL" = subscribeFrame "BTC-PERPETUAL" :=
  (subscribe_write_once_iff_handshake "BTC-PERPETUAL"
      ⟨.ok (), .ok 443, .ok (), .ok (), .ok (), []⟩).2
    (subscribeFrame "BTC-PERPETUAL") (by decide)

/-- C7: every read the session ever issues is issued over an empty receive
buffer: the buffer is empty at the first read and fully drained before each
subsequent read, whether or not the parse succeeded. -/
theorem buffer_zero_before_every_read (i : String) (env : Env) :
    (clientTrace i env).all readSizeZero = true :=
  sizes_clientTrace i env

/-- C9: an empty instrument string makes the process exit with a failure
status immediately, and its trace contains no network operation of any
kind — no resolve, connect, handshake, write or read is ever issued. -/
theorem empty_instrument_exits_failure (penv : ProcEnv) :
    mainRun "" penv = (1, [.err "Error: Instrument name cannot be empty.\n"]) ∧
    ((mainRun "" penv).2).all (fun e => !isOpEv e) = true :=
  ⟨rfl, rfl⟩

/-- C10: the process exit status is zero exactly when setup succeeded — a
non-empty instrument and no context-construction exception; stage failures
after setup (resolve, connect, ssl_handshake, handshake, write, read) still
exit with status zero. -/
theorem exit_zero_iff_setup_ok (i : String) (penv : ProcEnv) :
    (mainRun i penv).1 = 0 ↔ (i.isEmpty = false ∧ penv.ctorFail = none) := by
  unfold mainRun
  cases hi : i.isEmpty <;> cases hc : penv.ctorFail <;> simp [hi, hc]

/-- C8: a well-formed JSON payload delivered to the message pump produces
exactly one output emission, and the structure obtained by re-parsing the
emitted pretty-printed text is the structure obtained by parsing the input
payload. -/
theorem pump_emits_equivalent_structure (s : Session) (rs : List (Except String String))
    (p : String) (v : Json) (hb : s.buffer = "") (hp : parseJson p = some v) :
    (readLoop s (.ok p :: rs)).2 =
      .op (.readOp 0) :: .out ("Received message:\n" ++ toStyledString v ++ "\n") ::
        (readLoop { s with buffer := "" } rs).2 ∧
    parseJson (toStyledString v) = some v := by
  have hq : s.buffer ++ p = p := by rw [hb]; simp
  constructor
  · simp [readLoop, hq, hp, hb]
  · exact parse_toStyled v (parseJson_wf p v hp)

/-- Witness for C8 at a concrete well-formed payload. -/
theorem pump_emits_equivalent_structure_witness :
    parseJson (toStyledString (Json.obj [("a", Json.num 1)])) =
      some (Json.obj [("a", Json.num 1)]) :=
  (pump_emits_equivalent_structure ⟨"h", "i", "", .Streaming⟩ [] "\x7b\"a\":1\x7d"
    (Json.obj [("a", Json.num 1)]) rfl rfl).2

end OEMS
